import Mathlib

/-!
Shallow embedding of the `cyclic-toposort` TypeScript library.

JavaScript data structures are modelled as follows:
* `Set<number>` — an insertion-ordered list of naturals without duplicates
  (`NSet`); `Set.add` is `nsAdd`, which appends only when absent.
* `Map<number, Set<number>>` — an insertion-ordered association list
  (`NMap`); `Map.get`/`Map.set`/in-place update become `mlookup`,
  `mapEnsure` and `mapAdjust`.
* `Set<Edge>` — JS stores distinct array objects, so a set of edges is an
  insertion-ordered list of pairs (`ESet`); the code always compares edges
  by value where it matters, which the embedding mirrors.
* thrown exceptions — `Except String`; the two messages of the source are
  `cyclicGraphMsg` and `noValidMsg`.
* unbounded `while` loops and the recursive search — explicit fuel; the
  entry points pass a fuel value that is proved sufficient below
  (`acyclicLoop_isSome`, `cyclicRec_isSome`), so the out-of-fuel branch is
  dead code at the call sites of the library.
-/

namespace CT

abbrev Edge := Nat × Nat
abbrev NSet := List Nat
abbrev NMap := List (Nat × NSet)
abbrev ESet := List Edge
abbrev Topology := List NSet

/-- `Set.add` on an insertion-ordered set of numbers. -/
def nsAdd (s : NSet) (x : Nat) : NSet := if x ∈ s then s else s ++ [x]

/-- `Map.get` on an insertion-ordered association list. -/
def mlookup (k : Nat) : NMap → Option NSet
  | [] => none
  | p :: m => if p.1 = k then some p.2 else mlookup k m

/-- `Map.get` with the empty set as default (mirrors `!incoming` checks). -/
def mapGetD (m : NMap) (k : Nat) : NSet := (mlookup k m).getD []

/-- `Map.has`. -/
def mapHas (m : NMap) (k : Nat) : Bool := (mlookup k m).isSome

/-- `if (!m.has(k)) m.set(k, new Set())`. -/
def mapEnsure (m : NMap) (k : Nat) : NMap := if mapHas m k then m else m ++ [(k, [])]

/-- In-place mutation of the set stored under key `k` (no-op when absent,
mirroring `m.get(k)?.delete(...)` and `m.get(k)!.add(...)` after ensure). -/
def mapAdjust (m : NMap) (k : Nat) (f : NSet → NSet) : NMap :=
  m.map (fun p => if p.1 = k then (p.1, f p.2) else p)

/-- The keys of a map in iteration order. -/
def mapKeys (m : NMap) : NSet := m.map (fun p => p.1)

/-- Total number of entries in all value sets. -/
def edgeCount (m : NMap) : Nat := (m.map (fun p => p.2.length)).sum

/-! ### acyclic_toposort (src/acyclic_toposort.ts) -/

def cyclicGraphMsg : String := "Cyclic graph detected during acyclic sort."

def fuelMsg : String := "unreachable: fuel exhausted"

/-- One step of the edge loop of `acyclic_toposort`: track both endpoints,
skip self-loops, and record `start` as an incoming dependency of `end`. -/
def acyclicBuildStep (st : NMap × NSet) (e : Edge) : NMap × NSet :=
  let tracker := nsAdd (nsAdd st.2 e.1) e.2
  if e.1 = e.2 then (st.1, tracker)
  else (mapAdjust (mapEnsure st.1 e.2) e.2 (fun s => nsAdd s e.1), tracker)

/-- The map-building phase of `acyclic_toposort`: the incoming map and the
tracker of all mentioned nodes, with every tracked node given an entry. -/
def acyclicBuild (edges : List Edge) : NMap × NSet :=
  let st := edges.foldl acyclicBuildStep ([], [])
  (st.2.foldl mapEnsure st.1, st.2)

/-- Whether a node already occurs in some level of the topology built so far. -/
def placedB (topo : Topology) (n : Nat) : Bool := topo.any (fun l => decide (n ∈ l))

/-- Removal of the freshly placed nodes from the incoming sets of the nodes
that were not just placed (the final loop of each `while` iteration). -/
def removeDeps (ins : NMap) (dep : NSet) : NMap :=
  ins.map (fun p => if p.1 ∈ dep then p else (p.1, p.2.filter (fun d => !decide (d ∈ dep))))

/-- The `while (true)` loop of `acyclic_toposort`, with explicit fuel. -/
def acyclicLoop (tracker : NSet) : Nat → NMap → Topology → Option (Except String Topology)
  | 0, _, _ => none
  | fuel+1, ins, topo =>
    let dependencyless := tracker.filter (fun n => (mapGetD ins n).isEmpty && !placedB topo n)
    if dependencyless.isEmpty then
      if tracker.all (fun n => placedB topo n) then some (Except.ok topo)
      else some (Except.error cyclicGraphMsg)
    else acyclicLoop tracker fuel (removeDeps ins dependencyless) (topo ++ [dependencyless])

/-- `acyclic_toposort`: layer a DAG, throwing on a detected cycle. -/
def acyclic_toposort (edges : List Edge) : Except String Topology :=
  let b := acyclicBuild edges
  (acyclicLoop b.2 (b.2.length + 1) b.1 []).getD (Except.error fuelMsg)

/-! ### utils (src/utils.ts) -/

/-- `findNodesWithEmptySet`. -/
def findNodesWithEmptySet (m : NMap) : NSet :=
  (m.filter (fun p => p.2.isEmpty)).map (fun p => p.1)

/-- `removeNodes`: drop the given nodes as keys of both maps and from the
value sets of the remaining entries. -/
def removeNodesF (ins outs : NMap) (rm : NSet) : NMap × NMap :=
  ((ins.filter (fun p => !decide (p.1 ∈ rm))).map
      (fun p => (p.1, p.2.filter (fun x => !decide (x ∈ rm)))),
   (outs.filter (fun p => !decide (p.1 ∈ rm))).map
      (fun p => (p.1, p.2.filter (fun x => !decide (x ∈ rm)))))

/-- `recreateEdgesFromIns`: the edge set implied by an incoming map, in
iteration order. -/
def recreateEdgesFromIns (ins : NMap) : ESet :=
  ins.flatMap (fun p => p.2.map (fun s => (s, p.1)))

/-- Lexicographic order on edges used to canonicalise for comparison; the
source sorts the string forms `"u,v"`, which likewise induces a fixed total
order, so two edge sets compare equal exactly when they hold the same
edges with the same multiplicities. -/
def edgeKeyLe (a b : Edge) : Bool :=
  decide (a.1 < b.1) || (decide (a.1 = b.1) && decide (a.2 ≤ b.2))

def insertSortedEdge (e : Edge) : ESet → ESet
  | [] => [e]
  | x :: xs => if edgeKeyLe e x then e :: x :: xs else x :: insertSortedEdge e xs

def sortEdges (l : ESet) : ESet := l.foldr insertSortedEdge []

/-- `areSetsEqual` on edge sets: equal size and equal sorted contents. -/
def areSetsEqual (a b : ESet) : Bool :=
  decide (a.length = b.length) && decide (sortEdges a = sortEdges b)

/-- `combinations`: all size-`r` combinations of the pool, in the order the
index-stepping generator of the source emits them (lexicographic by
position: first all combinations containing the head, then the rest). -/
def combinations {α : Type} : Nat → List α → List (List α)
  | 0, _ => [[]]
  | _+1, [] => []
  | r+1, x :: xs => (combinations r xs).map (fun c => x :: c) ++ combinations (r+1) xs

/-- One candidate of `generate_reduced_ins_outs`: copies of both maps with
the chosen edges removed, and the removed edges themselves. -/
structure Cand where
  rins : NMap
  routs : NMap
  forced : ESet

/-- Remove the chosen edges from copies of both maps
(`modified_ins.get(end)?.delete(start)` and the mirrored delete). -/
def removeEdgesPair (ins outs : NMap) (ses : ESet) : NMap × NMap :=
  ses.foldl (fun st e =>
    (mapAdjust st.1 e.2 (fun s => s.filter (fun x => !decide (x = e.1))),
     mapAdjust st.2 e.1 (fun s => s.filter (fun x => !decide (x = e.2))))) (ins, outs)

/-- The candidates emitted for one node with at least two incoming edges:
every non-empty subset of its predecessors, smallest size first. -/
def nodeBlock (ins outs : NMap) (node : Nat) (inc : NSet) : List Cand :=
  (List.range' 1 inc.length).flatMap (fun n =>
    (combinations n inc).map (fun subset =>
      let ses : ESet := subset.map (fun s => (s, node))
      let r := removeEdgesPair ins outs ses
      ⟨r.1, r.2, ses⟩))

/-- The fallback candidates: every non-empty subset of the whole remaining
edge set, smallest size first. -/
def fallbackBlock (edges : ESet) (ins outs : NMap) : List Cand :=
  (List.range' 1 edges.length).flatMap (fun n =>
    (combinations n edges).map (fun ses =>
      let r := removeEdgesPair ins outs ses
      ⟨r.1, r.2, ses⟩))

/-- `generate_reduced_ins_outs`: prefer subsets of the incoming edges of
multi-predecessor nodes; fall back to subsets of all edges exactly when no
candidate was yielded by the primary phase. -/
def generate_reduced_ins_outs (edges : ESet) (ins outs : NMap) : List Cand :=
  let primary := ins.flatMap (fun p =>
    if p.2.length ≤ 1 then [] else nodeBlock ins outs p.1 p.2)
  if primary.isEmpty then fallbackBlock edges ins outs else primary

/-! ### _cyclic_toposort_recursive (src/cyclic_toposort.ts) -/

/-- `forced_cyclic_edges.size >= min_cyclic_edges_count`, where `none`
plays the role of `Infinity`. -/
def geMinB (k : Nat) : Option Nat → Bool
  | none => false
  | some m => decide (m ≤ k)

/-- Processing of one sub-solution returned by the recursive call: form the
union with the forced subset and update the best count and best list. -/
def innerStep (forced : ESet) (st : Option Nat × List ESet) (red : ESet) :
    Option Nat × List ESet :=
  let comb := forced ++ red
  match st.1 with
  | none => (some comb.length, [comb])
  | some mv =>
    if comb.length < mv then (some comb.length, [comb])
    else if comb.length = mv then
      if st.2.any (fun s => areSetsEqual s comb) then st
      else (st.1, st.2 ++ [comb])
    else st

/-- Processing of one candidate of the generator (the body of the
`for ... of generator` loop): skip it when its forced subset already
reaches the best-known count, otherwise recurse and fold its
sub-solutions into the running state. -/
def candStep (recur : NMap → NMap → Option (List ESet))
    (acc : Option (Option Nat × List ESet)) (c : Cand) :
    Option (Option Nat × List ESet) :=
  match acc with
  | none => none
  | some st =>
    if geMinB c.forced.length st.1 then some st
    else
      match recur c.rins c.routs with
      | none => none
      | some results => some (results.foldl (innerStep c.forced) st)

/-- `_cyclic_toposort_recursive`, with explicit fuel.  The peeling loop and
the recursive descent both consume fuel; `cyclicRec_isSome` below shows the
fuel passed by `cyclic_toposort` suffices. -/
def cyclicRec : Nat → NMap → NMap → Option (List ESet)
  | 0, _, _ => none
  | fuel+1, ins, outs =>
    let dep := findNodesWithEmptySet ins
    if dep.isEmpty then
      let fol := findNodesWithEmptySet outs
      if fol.isEmpty then
        let ce := recreateEdgesFromIns ins
        if ce.isEmpty then some [[]]
        else
          let cands := generate_reduced_ins_outs ce ins outs
          (cands.foldl (candStep (fun i o => cyclicRec fuel i o))
            (some ((none : Option Nat), ([] : List ESet)))).map (fun st => st.2)
      else
        let r := removeNodesF ins outs fol
        cyclicRec fuel r.1 r.2
    else
      let r := removeNodesF ins outs dep
      if r.1.isEmpty && r.2.isEmpty then some [[]]
      else cyclicRec fuel r.1 r.2

/-! ### cyclic_toposort (src/cyclic_toposort.ts) -/

/-- State of the edge loop of `cyclic_toposort`: both adjacency maps, the
forced-cyclic set collected for `start_node`, and all seen nodes. -/
structure BuildSt where
  ins : NMap
  outs : NMap
  forced : ESet
  allN : NSet

/-- One step of the edge loop of `cyclic_toposort` (lines 109-130 of the
source): track nodes, skip self-loops, create the four entries, divert
edges targeting `start_node` into the forced set, otherwise register the
edge in both maps. -/
def cyclicBuildStep (sn : Option Nat) (st : BuildSt) (e : Edge) : BuildSt :=
  let allN := nsAdd (nsAdd st.allN e.1) e.2
  if e.1 = e.2 then ⟨st.ins, st.outs, st.forced, allN⟩
  else
    let ins1 := mapEnsure st.ins e.2
    let outs1 := mapEnsure st.outs e.1
    let ins2 := mapEnsure ins1 e.1
    let outs2 := mapEnsure outs1 e.2
    if sn = some e.2 then ⟨ins2, outs2, st.forced ++ [e], allN⟩
    else ⟨mapAdjust ins2 e.2 (fun s => nsAdd s e.1),
          mapAdjust outs2 e.1 (fun s => nsAdd s e.2), st.forced, allN⟩

/-- The full map-building phase of `cyclic_toposort` (lines 104-141):
the edge loop, the entries for every seen node, and the isolated
`start_node` when it was never mentioned. -/
def cyclicBuild (edges : List Edge) (sn : Option Nat) : BuildSt :=
  let st := edges.foldl (cyclicBuildStep sn) ⟨[], [], [], []⟩
  let st2 : BuildSt :=
    ⟨st.allN.foldl mapEnsure st.ins, st.allN.foldl mapEnsure st.outs, st.forced, st.allN⟩
  match sn with
  | none => st2
  | some s =>
    if s ∈ st2.allN then st2
    else ⟨mapEnsure st2.ins s, mapEnsure st2.outs s, st2.forced, st2.allN ++ [s]⟩

/-- The state after the edge loop of `cyclic_toposort` (lines 109-130). -/
def buildFold (edges : List Edge) (sn : Option Nat) : BuildSt :=
  edges.foldl (cyclicBuildStep sn) ⟨[], [], [], []⟩

/-- The state after also giving every seen node an entry (lines 132-135). -/
def buildPhase2 (edges : List Edge) (sn : Option Nat) : BuildSt :=
  ⟨(buildFold edges sn).allN.foldl mapEnsure (buildFold edges sn).ins,
   (buildFold edges sn).allN.foldl mapEnsure (buildFold edges sn).outs,
   (buildFold edges sn).forced, (buildFold edges sn).allN⟩

/-- Fuel passed to the recursive search: one unit per peel iteration (each
drops a key) or branch level (each drops an edge), plus one. -/
def cyclicFuel (ins : NMap) : Nat := ins.length + edgeCount ins + 1

/-- Subtraction of the combined cyclic set from the input edges, by value
equality of both components (lines 155-167). -/
def subtractEdges (edges : List Edge) (cyc : ESet) : List Edge :=
  edges.filter (fun e => !(cyc.any (fun c => decide (c.1 = e.1) && decide (c.2 = e.2))))

/-- The `try`/`catch` body for one candidate: union with the forced set,
subtract, layer; a failed layering discards the candidate. -/
def mkSurvivor (edges : List Edge) (forced : ESet) (cs : ESet) :
    Option (Topology × ESet) :=
  let combined := cs ++ forced
  match acyclic_toposort (subtractEdges edges combined) with
  | Except.ok t => some (t, combined)
  | Except.error _ => none

/-- The recursive search run on the built maps. -/
def recResultsOf (edges : List Edge) (sn : Option Nat) : Option (List ESet) :=
  let b := cyclicBuild edges sn
  cyclicRec (cyclicFuel b.ins) b.ins b.outs

/-- The list of cyclic-edge-set candidates produced for an input. -/
def recResults (edges : List Edge) (sn : Option Nat) : List ESet :=
  (recResultsOf edges sn).getD []

/-- The `possible_results` list: every candidate whose remainder layers. -/
def survivorsOf (edges : List Edge) (sn : Option Nat) : List (Topology × ESet) :=
  (recResults edges sn).filterMap (mkSurvivor edges (cyclicBuild edges sn).forced)

/-- The selection score of a result: the summed sizes of the incoming sets
(of the orchestrator's built map) at the targets of its cyclic edges. -/
def scoreOf (ins : NMap) (cyc : ESet) : Nat :=
  cyc.foldl (fun acc e => acc + (mapGetD ins e.2).length) 0

/-- One step of the best-result loop (lines 193-204): strict improvement
replaces the best, so ties keep the earliest candidate. -/
def selectStep (ins : NMap) (acc : (Topology × ESet) × Option Nat) (r : Topology × ESet) :
    (Topology × ESet) × Option Nat :=
  match acc.2 with
  | none => (r, some (scoreOf ins r.2))
  | some bs => if bs < scoreOf ins r.2 then (r, some (scoreOf ins r.2)) else acc

/-- The best-result loop over all surviving results, started from the first
result and a score of negative infinity (`none`). -/
def selectResult (ins : NMap) (possible : List (Topology × ESet))
    (r0 : Topology × ESet) : Topology × ESet :=
  (possible.foldl (selectStep ins) (r0, none)).1

def noValidMsg : String :=
  "Could not find a valid topological sort after cycle removal attempts."

/-- `cyclic_toposort`: build the maps, run the recursive search, keep the
candidates whose remainder layers, fail if none survives, and return the
best-scoring survivor. -/
def cyclic_toposort (edges : List Edge) (sn : Option Nat) :
    Except String (Topology × ESet) :=
  let b := cyclicBuild edges sn
  match cyclicRec (cyclicFuel b.ins) b.ins b.outs with
  | none => Except.error fuelMsg
  | some L =>
    match L.filterMap (mkSurvivor edges b.forced) with
    | [] => Except.error noValidMsg
    | r0 :: rest => Except.ok (selectResult b.ins (r0 :: rest) r0)

/-! ### Specification-side notions used by the claims -/

/-- The non-self-loop edge relation of an input edge collection. -/
def EdgeRel (edges : List Edge) (u v : Nat) : Prop := (u, v) ∈ edges ∧ u ≠ v

/-- A directed cycle among the retained (non-self-loop) edges: a closed
non-trivial walk. -/
def HasCycle (edges : List Edge) : Prop :=
  ∃ v l, List.Chain (EdgeRel edges) v (l ++ [v])

/-- A node mentioned by some edge of the input (self-loops included). -/
def Mentioned (edges : List Edge) (n : Nat) : Prop :=
  ∃ e ∈ edges, e.1 = n ∨ e.2 = n

/-- The edges stored in an incoming map. -/
def mapEdges (ins : NMap) : List Edge := recreateEdgesFromIns ins

/-- A directed cycle among the edges stored in an incoming map. -/
def MapHasCycle (ins : NMap) : Prop := HasCycle (mapEdges ins)

/-- The adjacency-state invariant of the specification: insertion-ordered
maps with no duplicate keys or values, the same node set on both sides,
mirrored edge membership, value sets drawn from the key set, and no
self-loops. -/
structure AdjInvP (ins outs : NMap) : Prop where
  knIns : (mapKeys ins).Nodup
  knOuts : (mapKeys outs).Nodup
  sync : ∀ n, n ∈ mapKeys ins ↔ n ∈ mapKeys outs
  vnIns : ∀ p ∈ ins, p.2.Nodup
  vnOuts : ∀ p ∈ outs, p.2.Nodup
  mirror : ∀ u v, u ∈ mapGetD ins v ↔ v ∈ mapGetD outs u
  valKeys : ∀ u v, u ∈ mapGetD ins v → u ∈ mapKeys ins ∧ v ∈ mapKeys ins
  selfFree : ∀ v, v ∉ mapGetD ins v

/-- The structural facts about the two adjacency maps that the recursive
search maintains: no duplicate keys, no duplicate values, and the same key
set on both sides. -/
structure RecInv (ins outs : NMap) : Prop where
  knIns : (mapKeys ins).Nodup
  knOuts : (mapKeys outs).Nodup
  sync : ∀ n, n ∈ mapKeys ins ↔ n ∈ mapKeys outs
  vnIns : ∀ p ∈ ins, p.2.Nodup

/-- Every edge of the set is stored in the incoming map. -/
def EdgesIn (ins : NMap) (s : ESet) : Prop := ∀ e ∈ s, e.1 ∈ mapGetD ins e.2

/-- The extra facts used by the peeling argument: stored predecessors are
themselves keys, and no node is its own predecessor. -/
structure AcyInv (ins : NMap) : Prop where
  valKeys : ∀ u v, u ∈ mapGetD ins v → u ∈ mapKeys ins
  selfFree : ∀ v, v ∉ mapGetD ins v

/-- Invariant of the best-count/best-list state threaded through the
candidate loop of `_cyclic_toposort_recursive`. -/
def FoldInv (ins : NMap) (st : Option Nat × List ESet) : Prop :=
  (st.1 = none → st.2 = []) ∧
  (∀ mv, st.1 = some mv →
    st.2 ≠ [] ∧ (∀ s ∈ st.2, s.length = mv ∧ s.Nodup ∧ EdgesIn ins s) ∧
    st.2.Pairwise (fun s t => areSetsEqual s t = false))

/-- What holds of one candidate before the loop body processes it: its
forced subset is a well-formed part of the current map, and the recursive
call returns a non-empty list of well-formed solutions disjoint from the
forced subset. -/
def CandOK (recur : NMap → NMap → Option (List ESet)) (ins : NMap) (c : Cand) : Prop :=
  c.forced.Nodup ∧ EdgesIn ins c.forced ∧
  ∃ L, recur c.rins c.routs = some L ∧ L ≠ [] ∧
    (∀ s ∈ L, s.Nodup ∧ EdgesIn ins s ∧ ∀ e ∈ c.forced, e ∉ s)

/-- The incoming map of the input graph before any removal: the map built
with no `start_node`. -/
def fullIns (edges : List Edge) : NMap := (cyclicBuild edges none).ins

/-- The selection score measured against the original full incoming map. -/
def fullScore (edges : List Edge) (cyc : ESet) : Nat := scoreOf (fullIns edges) cyc

/-- Propositional form of `placedB`: the node occurs in some level. -/
def Placed (topo : Topology) (n : Nat) : Prop := ∃ l ∈ topo, n ∈ l

/-- The index of the level containing a node (the number of levels when the
node is unplaced). -/
def lvlIdx (topo : Topology) (n : Nat) : Nat := topo.findIdx (fun l => decide (n ∈ l))

/-- The invariant carried through the layering loop of `acyclic_toposort`,
relative to the fixed tracker and the edge relation `P` of the input:
levels are pairwise disjoint and drawn from the tracker, the incoming set
of an unplaced node holds exactly its unplaced `P`-predecessors, and every
`P`-predecessor of a placed node was placed in a strictly earlier level. -/
structure LoopInv (tracker : NSet) (P : Nat → Nat → Prop) (ins : NMap) (topo : Topology) : Prop where
  disj : topo.Pairwise (fun a b => ∀ n, n ∈ a → n ∉ b)
  lvlsub : ∀ l ∈ topo, ∀ n ∈ l, n ∈ tracker
  insIff : ∀ v ∈ tracker, ¬ Placed topo v → ∀ u, (u ∈ mapGetD ins v ↔ P u v ∧ ¬ Placed topo u)
  ordered : ∀ u v, P u v → ∀ j, ∀ hj : j < topo.length, v ∈ topo.get ⟨j, hj⟩ →
    Placed (topo.take j) u

end CT

namespace CT

/-! ### Basic lemmas about the map and set operations -/

theorem nsAdd_mem (s : NSet) (x y : Nat) : y ∈ nsAdd s x ↔ y ∈ s ∨ y = x := by
  unfold nsAdd
  split
  · constructor
    · exact fun h => Or.inl h
    · rintro (h | rfl) <;> assumption
  · simp

theorem nsAdd_nodup {s : NSet} (h : s.Nodup) (x : Nat) : (nsAdd s x).Nodup := by
  unfold nsAdd
  split
  · exact h
  · rename_i hx
    simpa [List.nodup_append, h] using hx

theorem mlookup_eq_none {k : Nat} {m : NMap} : mlookup k m = none ↔ k ∉ mapKeys m := by
  induction m with
  | nil => simp [mlookup, mapKeys]
  | cons p m ih =>
    by_cases h : p.1 = k
    · subst h
      simp [mlookup, mapKeys]
    · have hk : ¬ k = p.1 := fun hh => h hh.symm
      simp only [mlookup, if_neg h, mapKeys, List.map_cons, List.mem_cons, ih]
      constructor
      · intro hn
        rintro (hc | hc)
        · exact hk hc
        · exact hn (by simpa [mapKeys] using hc)
      · intro hn hc
        exact hn (Or.inr (by simpa [mapKeys] using hc))

theorem mlookup_isSome {k : Nat} {m : NMap} : (mlookup k m).isSome = true ↔ k ∈ mapKeys m := by
  rw [Option.isSome_iff_ne_none]
  constructor
  · intro h
    by_contra hk
    exact h (mlookup_eq_none.2 hk)
  · intro h hn
    exact mlookup_eq_none.1 hn h

theorem mapHas_iff {m : NMap} {k : Nat} : mapHas m k = true ↔ k ∈ mapKeys m :=
  mlookup_isSome

theorem mlookup_append {k : Nat} {m₁ m₂ : NMap} :
    mlookup k (m₁ ++ m₂) = ((mlookup k m₁).orElse (fun _ => mlookup k m₂)) := by
  induction m₁ with
  | nil => simp [mlookup]
  | cons p m ih =>
    by_cases h : p.1 = k <;> simp [mlookup, h, ih]

theorem mapGetD_ensure (m : NMap) (k v : Nat) : mapGetD (mapEnsure m k) v = mapGetD m v := by
  unfold mapEnsure
  split
  · rfl
  · rename_i h
    unfold mapGetD
    rw [mlookup_append]
    by_cases hv : v = k
    · subst hv
      have : mlookup v m = none := by
        rw [mlookup_eq_none]
        intro hk
        exact h (mapHas_iff.2 hk)
      simp [this, mlookup]
    · cases hm : mlookup v m with
      | none =>
        have hkv : ¬ k = v := fun hh => hv hh.symm
        simp [mlookup, hkv]
      | some s => simp [hm]

theorem mapKeys_ensure_of_mem {m : NMap} {k : Nat} (h : k ∈ mapKeys m) :
    mapEnsure m k = m := by
  unfold mapEnsure
  rw [if_pos (mapHas_iff.2 h)]

theorem mapKeys_ensure (m : NMap) (k : Nat) :
    mapKeys (mapEnsure m k) = if k ∈ mapKeys m then mapKeys m else mapKeys m ++ [k] := by
  unfold mapEnsure
  by_cases h : k ∈ mapKeys m
  · rw [if_pos (mapHas_iff.2 h), if_pos h]
  · rw [if_neg (fun hs => h (mapHas_iff.1 hs)), if_neg h]
    simp [mapKeys]

theorem mem_mapKeys_ensure {m : NMap} {k n : Nat} :
    n ∈ mapKeys (mapEnsure m k) ↔ n ∈ mapKeys m ∨ n = k := by
  rw [mapKeys_ensure]
  split
  · rename_i h
    constructor
    · exact Or.inl
    · rintro (hn | rfl) <;> assumption
  · simp

theorem mapKeys_ensure_nodup {m : NMap} (h : (mapKeys m).Nodup) (k : Nat) :
    (mapKeys (mapEnsure m k)).Nodup := by
  rw [mapKeys_ensure]
  split
  · exact h
  · rename_i hk
    simpa [List.nodup_append, h] using hk

theorem mlookup_adjust_self (m : NMap) (k : Nat) (f : NSet → NSet) :
    mlookup k (mapAdjust m k f) = (mlookup k m).map f := by
  induction m with
  | nil => simp [mlookup, mapAdjust]
  | cons p m ih =>
    by_cases h : p.1 = k
    · simp [mlookup, mapAdjust, h]
    · simp only [mapAdjust, List.map_cons, if_neg h, mlookup]
      exact ih

theorem mlookup_adjust_ne (m : NMap) {k v : Nat} (f : NSet → NSet) (h : v ≠ k) :
    mlookup v (mapAdjust m k f) = mlookup v m := by
  induction m with
  | nil => simp [mlookup, mapAdjust]
  | cons p m ih =>
    show mlookup v ((if p.1 = k then (p.1, f p.2) else p) :: mapAdjust m k f) = _
    by_cases hp : p.1 = k
    · rw [if_pos hp]
      have hpv : ¬ p.1 = v := by rw [hp]; exact fun hh => h hh.symm
      show (if p.1 = v then some (f p.2) else mlookup v (mapAdjust m k f)) = _
      rw [if_neg hpv]
      show _ = (if p.1 = v then some p.2 else mlookup v m)
      rw [if_neg hpv]
      exact ih
    · rw [if_neg hp]
      show (if p.1 = v then some p.2 else mlookup v (mapAdjust m k f))
          = (if p.1 = v then some p.2 else mlookup v m)
      by_cases hv : p.1 = v
      · rw [if_pos hv, if_pos hv]
      · rw [if_neg hv, if_neg hv]
        exact ih

theorem mapGetD_adjust (m : NMap) (k v : Nat) (f : NSet → NSet) (hf : f [] = []) :
    mapGetD (mapAdjust m k f) v = if v = k then f (mapGetD m v) else mapGetD m v := by
  unfold mapGetD
  by_cases h : v = k
  · subst h
    rw [mlookup_adjust_self]
    cases mlookup v m <;> simp [hf]
  · rw [mlookup_adjust_ne m f h, if_neg h]

theorem mapKeys_adjust (m : NMap) (k : Nat) (f : NSet → NSet) :
    mapKeys (mapAdjust m k f) = mapKeys m := by
  induction m with
  | nil => rfl
  | cons p m ih =>
    by_cases h : p.1 = k <;> simp [mapKeys, mapAdjust, h] <;>
      simpa [mapKeys, mapAdjust] using ih

theorem length_adjust (m : NMap) (k : Nat) (f : NSet → NSet) :
    (mapAdjust m k f).length = m.length := by
  simp [mapAdjust]

theorem entry_mlookup {m : NMap} (hn : (mapKeys m).Nodup) {k : Nat} {s : NSet}
    (hm : (k, s) ∈ m) : mlookup k m = some s := by
  induction m with
  | nil => cases hm
  | cons p m ih =>
    have hn2 : (p.1 :: mapKeys m).Nodup := by simpa [mapKeys] using hn
    rcases List.mem_cons.1 hm with h | h
    · rw [← h]
      simp [mlookup]
    · have hk : k ∈ mapKeys m := List.mem_map.2 ⟨(k, s), h, rfl⟩
      have hp : ¬ p.1 = k := fun hh => (List.nodup_cons.1 hn2).1 (by rw [hh]; exact hk)
      show (if p.1 = k then some p.2 else mlookup k m) = some s
      rw [if_neg hp]
      exact ih (by simpa [mapKeys] using (List.nodup_cons.1 hn2).2) h

theorem mlookup_entry {m : NMap} {k : Nat} {s : NSet} (h : mlookup k m = some s) :
    (k, s) ∈ m := by
  induction m with
  | nil => cases h
  | cons p m ih =>
    by_cases hp : p.1 = k
    · simp only [mlookup, if_pos hp] at h
      cases h
      subst hp
      simp
    · simp only [mlookup, if_neg hp] at h
      exact List.mem_cons_of_mem _ (ih h)

theorem mem_mapGetD_entry {m : NMap} {k u : Nat} (h : u ∈ mapGetD m k) :
    ∃ s, mlookup k m = some s ∧ u ∈ s := by
  unfold mapGetD at h
  cases hm : mlookup k m with
  | none => rw [hm] at h; cases h
  | some s => rw [hm] at h; exact ⟨s, rfl, h⟩

end CT

namespace CT

/-! ### Counting and filtering lemmas -/

theorem length_filter_le_of_imp {l : List Nat} {p q : Nat → Bool}
    (h : ∀ x, q x = true → p x = true) :
    (l.filter q).length ≤ (l.filter p).length := by
  induction l with
  | nil => simp
  | cons x xs ih =>
    by_cases hq : q x = true
    · rw [List.filter_cons_of_pos hq, List.filter_cons_of_pos (h x hq)]
      simpa using ih
    · rw [List.filter_cons_of_neg (by simpa using hq)]
      by_cases hp : p x = true
      · rw [List.filter_cons_of_pos hp]
        exact Nat.le_succ_of_le ih
      · rw [List.filter_cons_of_neg (by simpa using hp)]
        exact ih

theorem length_filter_lt_of_imp {l : List Nat} {p q : Nat → Bool}
    (h : ∀ x, q x = true → p x = true) {w : Nat} (hw : w ∈ l)
    (hp : p w = true) (hq : q w = false) :
    (l.filter q).length < (l.filter p).length := by
  induction l with
  | nil => cases hw
  | cons x xs ih =>
    rcases List.mem_cons.1 hw with rfl | hw2
    · rw [List.filter_cons_of_neg (by simp [hq]), List.filter_cons_of_pos hp]
      exact Nat.lt_succ_of_le (length_filter_le_of_imp h)
    · by_cases hqx : q x = true
      · rw [List.filter_cons_of_pos hqx, List.filter_cons_of_pos (h x hqx)]
        simpa using ih hw2
      · rw [List.filter_cons_of_neg (by simpa using hqx)]
        by_cases hpx : p x = true
        · rw [List.filter_cons_of_pos hpx]
          exact Nat.lt_succ_of_le (Nat.le_of_lt (ih hw2))
        · rw [List.filter_cons_of_neg (by simpa using hpx)]
          exact ih hw2

/-! ### placedB and Placed -/

theorem placedB_iff {topo : Topology} {n : Nat} : placedB topo n = true ↔ Placed topo n := by
  simp [placedB, Placed, List.any_eq_true]

theorem placedB_false_iff {topo : Topology} {n : Nat} :
    placedB topo n = false ↔ ¬ Placed topo n := by
  rw [← placedB_iff]
  cases placedB topo n <;> simp

theorem Placed_append {t₁ t₂ : Topology} {n : Nat} :
    Placed (t₁ ++ t₂) n ↔ Placed t₁ n ∨ Placed t₂ n := by
  simp [Placed, List.mem_append]
  constructor
  · rintro ⟨l, (h | h), hn⟩
    · exact Or.inl ⟨l, h, hn⟩
    · exact Or.inr ⟨l, h, hn⟩
  · rintro (⟨l, h, hn⟩ | ⟨l, h, hn⟩)
    · exact ⟨l, Or.inl h, hn⟩
    · exact ⟨l, Or.inr h, hn⟩

theorem Placed_single {l : NSet} {n : Nat} : Placed [l] n ↔ n ∈ l := by
  simp [Placed]

theorem Placed_nil {n : Nat} : ¬ Placed [] n := by
  simp [Placed]

/-! ### removeDeps -/

theorem mapGetD_removeDeps (ins : NMap) (dep : NSet) (v : Nat) :
    mapGetD (removeDeps ins dep) v =
      if v ∈ dep then mapGetD ins v
      else (mapGetD ins v).filter (fun d => !decide (d ∈ dep)) := by
  induction ins with
  | nil =>
    simp only [removeDeps, List.map_nil, mapGetD, mlookup]
    split <;> rfl
  | cons p m ih =>
    have h1 : removeDeps (p :: m) dep =
        (if p.1 ∈ dep then p else (p.1, p.2.filter (fun d => !decide (d ∈ dep))))
          :: removeDeps m dep := rfl
    by_cases hv : p.1 = v
    · subst hv
      by_cases hd : p.1 ∈ dep
      · rw [h1, if_pos hd, if_pos hd]
        simp [mapGetD, mlookup]
      · rw [h1, if_neg hd, if_neg hd]
        simp [mapGetD, mlookup]
    · have hgd : mapGetD (p :: m) v = mapGetD m v := by simp [mapGetD, mlookup, hv]
      have h2 : mapGetD (removeDeps (p :: m) dep) v = mapGetD (removeDeps m dep) v := by
        rw [h1]
        by_cases hd : p.1 ∈ dep
        · rw [if_pos hd]
          simp [mapGetD, mlookup, hv]
        · rw [if_neg hd]
          simp [mapGetD, mlookup, hv]
      rw [h2, ih, hgd]

/-! ### acyclicBuild characterisation -/

theorem mapGetD_adjust_of_mem {m : NMap} {k : Nat} (f : NSet → NSet)
    (hk : k ∈ mapKeys m) : mapGetD (mapAdjust m k f) k = f (mapGetD m k) := by
  unfold mapGetD
  rw [mlookup_adjust_self]
  cases hm : mlookup k m with
  | none => exact absurd (mlookup_eq_none.1 hm) (by simpa using hk)
  | some s => simp

theorem acyclicBuildStep_getD_mem (st : NMap × NSet) (e : Edge) (u v : Nat) :
    u ∈ mapGetD (acyclicBuildStep st e).1 v ↔
      u ∈ mapGetD st.1 v ∨ (e.1 ≠ e.2 ∧ v = e.2 ∧ u = e.1) := by
  unfold acyclicBuildStep
  by_cases hse : e.1 = e.2
  · simp [hse]
  · simp only [if_neg hse]
    by_cases hv : v = e.2
    · subst hv
      rw [mapGetD_adjust_of_mem _ (mem_mapKeys_ensure.2 (Or.inr rfl))]
      rw [mapGetD_ensure]
      rw [nsAdd_mem]
      constructor
      · rintro (h | h)
        · exact Or.inl h
        · exact Or.inr ⟨hse, rfl, h⟩
      · rintro (h | ⟨_, _, h⟩)
        · exact Or.inl h
        · exact Or.inr h
    · have h1 : mapGetD (mapAdjust (mapEnsure st.1 e.2) e.2 (fun s => nsAdd s e.1)) v
          = mapGetD (mapEnsure st.1 e.2) v := by
        unfold mapGetD
        rw [mlookup_adjust_ne _ _ hv]
      rw [h1, mapGetD_ensure]
      simp [hv]

theorem foldl_acyclicBuild_getD (edges : List Edge) (st : NMap × NSet) (u v : Nat) :
    u ∈ mapGetD (edges.foldl acyclicBuildStep st).1 v ↔
      u ∈ mapGetD st.1 v ∨ ((u, v) ∈ edges ∧ u ≠ v) := by
  induction edges generalizing st with
  | nil => simp
  | cons e es ih =>
    rw [List.foldl_cons, ih, acyclicBuildStep_getD_mem]
    constructor
    · rintro ((h | ⟨hne, rfl, rfl⟩) | ⟨h, hne⟩)
      · exact Or.inl h
      · exact Or.inr ⟨List.mem_cons_self _ _, fun hh => hne hh⟩
      · exact Or.inr ⟨List.mem_cons_of_mem _ h, hne⟩
    · rintro (h | ⟨h, hne⟩)
      · exact Or.inl (Or.inl h)
      · rcases List.mem_cons.1 h with hh | hh
        · refine Or.inl (Or.inr ?_)
          rw [← hh]
          exact ⟨hne, rfl, rfl⟩
        · exact Or.inr ⟨hh, hne⟩

theorem foldl_acyclicBuild_tracker (edges : List Edge) (st : NMap × NSet) (n : Nat) :
    n ∈ (edges.foldl acyclicBuildStep st).2 ↔ n ∈ st.2 ∨ Mentioned edges n := by
  induction edges generalizing st with
  | nil => simp [Mentioned]
  | cons e es ih =>
    rw [List.foldl_cons, ih]
    have hst : n ∈ (acyclicBuildStep st e).2 ↔ n ∈ st.2 ∨ n = e.1 ∨ n = e.2 := by
      unfold acyclicBuildStep
      by_cases hse : e.1 = e.2 <;>
        simp [hse, nsAdd_mem] <;> tauto
    rw [hst]
    unfold Mentioned
    constructor
    · rintro ((h | h | h) | ⟨f, hf, hor⟩)
      · exact Or.inl h
      · exact Or.inr ⟨e, List.mem_cons_self _ _, Or.inl h.symm⟩
      · exact Or.inr ⟨e, List.mem_cons_self _ _, Or.inr h.symm⟩
      · exact Or.inr ⟨f, List.mem_cons_of_mem _ hf, hor⟩
    · rintro (h | ⟨f, hf, hor⟩)
      · exact Or.inl (Or.inl h)
      · rcases List.mem_cons.1 hf with hh | hh
        · subst hh
          rcases hor with h1 | h1
        
          · exact Or.inl (Or.inr (Or.inl h1.symm))
          · exact Or.inl (Or.inr (Or.inr h1.symm))
        · exact Or.inr ⟨f, hh, hor⟩

theorem foldl_acyclicBuild_tracker_nodup (edges : List Edge) (st : NMap × NSet)
    (h : st.2.Nodup) : (edges.foldl acyclicBuildStep st).2.Nodup := by
  induction edges generalizing st with
  | nil => exact h
  | cons e es ih =>
    rw [List.foldl_cons]
    apply ih
    have : (acyclicBuildStep st e).2 = nsAdd (nsAdd st.2 e.1) e.2 := by
      unfold acyclicBuildStep
      by_cases hse : e.1 = e.2 <;> simp [hse]
    rw [this]
    exact nsAdd_nodup (nsAdd_nodup h _) _

theorem foldl_ensure_getD (ns : NSet) (m : NMap) (v : Nat) :
    mapGetD (ns.foldl mapEnsure m) v = mapGetD m v := by
  induction ns generalizing m with
  | nil => rfl
  | cons x xs ih => rw [List.foldl_cons, ih, mapGetD_ensure]

theorem acyclicBuild_getD (edges : List Edge) (u v : Nat) :
    u ∈ mapGetD (acyclicBuild edges).1 v ↔ (u, v) ∈ edges ∧ u ≠ v := by
  unfold acyclicBuild
  rw [foldl_ensure_getD, foldl_acyclicBuild_getD]
  simp [mapGetD, mlookup]

theorem acyclicBuild_tracker (edges : List Edge) (n : Nat) :
    n ∈ (acyclicBuild edges).2 ↔ Mentioned edges n := by
  unfold acyclicBuild
  rw [foldl_acyclicBuild_tracker]
  simp

theorem acyclicBuild_tracker_nodup (edges : List Edge) : (acyclicBuild edges).2.Nodup :=
  foldl_acyclicBuild_tracker_nodup edges ([], []) List.nodup_nil

end CT

namespace CT

/-! ### Cycle extraction and exclusion -/

theorem cycle_of_mem_preds {R : List Nat} {E : Nat → Nat → Prop}
    (hne : R ≠ []) (h : ∀ v ∈ R, ∃ u ∈ R, E u v) :
    ∃ v l, List.Chain E v (l ++ [v]) := by
  classical
  let f : Nat → Nat := fun v => if hv : ∃ u, u ∈ R ∧ E u v then hv.choose else 0
  have hf : ∀ v ∈ R, f v ∈ R ∧ E (f v) v := by
    intro v hv
    rcases h v hv with ⟨u, hu, hE⟩
    have hex : ∃ u, u ∈ R ∧ E u v := ⟨u, hu, hE⟩
    show (if hv : ∃ u, u ∈ R ∧ E u v then hv.choose else 0) ∈ R ∧
      E (if hv : ∃ u, u ∈ R ∧ E u v then hv.choose else 0) v
    rw [dif_pos hex]
    exact ⟨hex.choose_spec.1, hex.choose_spec.2⟩
  set r := R.head hne with hr
  have hrR : r ∈ R := List.head_mem hne
  let g : Nat → Nat := fun i => f^[i] r
  have hg : ∀ i, g i ∈ R := by
    intro i
    induction i with
    | zero => exact hrR
    | succ i ih =>
      show f^[i+1] r ∈ R
      rw [Function.iterate_succ_apply']
      exact (hf _ ih).1
  have hstep : ∀ i, E (g (i+1)) (g i) := by
    intro i
    show E (f^[i+1] r) (f^[i] r)
    rw [Function.iterate_succ_apply']
    exact (hf _ (hg i)).2
  have hmaps : ∀ i ∈ Finset.range (R.length + 1), g i ∈ R.toFinset := by
    intro i _
    exact List.mem_toFinset.2 (hg i)
  have hcard : R.toFinset.card < (Finset.range (R.length + 1)).card := by
    rw [Finset.card_range]
    exact Nat.lt_succ_of_le (List.toFinset_card_le R)
  obtain ⟨x, _, y, _, hxy, hgxy⟩ :=
    Finset.exists_ne_map_eq_of_card_lt_of_maps_to hcard hmaps
  have key : ∀ d, 1 ≤ d → ∀ i, ∃ l, List.Chain E (g (i + d)) (l ++ [g i]) := by
    intro d hd
    induction d with
    | zero => omega
    | succ d ih =>
      intro i
      by_cases hd0 : d = 0
      · subst hd0
        exact ⟨[], List.Chain.cons (hstep i) List.Chain.nil⟩
      · obtain ⟨l, hl⟩ := ih (by omega) i
        refine ⟨g (i + d) :: l, ?_⟩
        have : i + (d + 1) = (i + d) + 1 := by omega
        rw [this]
        exact List.Chain.cons (hstep (i + d)) hl
  rcases Nat.lt_or_ge x y with hlt | hge
  · obtain ⟨l, hl⟩ := key (y - x) (by omega) x
    rw [show x + (y - x) = y from by omega] at hl
    rw [hgxy] at hl
    exact ⟨g y, l, hl⟩
  · have hyx : y < x := by omega
    obtain ⟨l, hl⟩ := key (x - y) (by omega) y
    rw [show y + (x - y) = x from by omega] at hl
    rw [← hgxy] at hl
    exact ⟨g x, l, hl⟩

theorem HasCycle_mono {es es' : List Edge}
    (h : ∀ u v, EdgeRel es u v → EdgeRel es' u v) :
    HasCycle es → HasCycle es' := by
  rintro ⟨v, l, hc⟩
  exact ⟨v, l, hc.imp (fun a b => h a b)⟩

theorem lvlIdx_eq {topo : Topology} {n : Nat} :
    ∀ {i : Nat} (hi : i < topo.length),
      topo.countP (fun l => decide (n ∈ l)) = 1 → n ∈ topo.get ⟨i, hi⟩ →
      lvlIdx topo n = i := by
  induction topo with
  | nil =>
    intro i hi
    exact absurd hi (by simp)
  | cons l ls ih =>
    intro i hi hcount hn
    rw [List.countP_cons] at hcount
    by_cases hl : n ∈ l
    · have hzero : ls.countP (fun t => decide (n ∈ t)) = 0 := by
        rw [if_pos (by simpa using hl)] at hcount
        omega
      cases i with
      | zero => simp [lvlIdx, List.findIdx_cons, hl]
      | succ i =>
        exfalso
        have : n ∈ ls.get ⟨i, by simpa using hi⟩ := hn
        have hmem : ∃ t ∈ ls, n ∈ t := ⟨_, List.get_mem _ _ _, this⟩
        have : 0 < ls.countP (fun t => decide (n ∈ t)) :=
          List.countP_pos.2 (by simpa using hmem)
        omega
    · cases i with
      | zero => exact absurd hn hl
      | succ i =>
        have hcount2 : ls.countP (fun t => decide (n ∈ t)) = 1 := by
          rw [if_neg (by simpa using hl)] at hcount
          omega
        have : lvlIdx ls n = i := ih (by simpa using hi) hcount2 hn
        simp [lvlIdx, List.findIdx_cons, hl] at this ⊢
        exact this

theorem no_cycle_of_ranking {edges : List Edge} {topo : Topology}
    (hcount : ∀ n, Mentioned edges n → topo.countP (fun l => decide (n ∈ l)) = 1)
    (hord : ∀ u v, (u, v) ∈ edges → u ≠ v → ∃ i j, i < j ∧ ∃ hi : i < topo.length,
        ∃ hj : j < topo.length, u ∈ topo.get ⟨i, hi⟩ ∧ v ∈ topo.get ⟨j, hj⟩) :
    ¬ HasCycle edges := by
  rintro ⟨v, l, hchain⟩
  have himp : ∀ a b, EdgeRel edges a b → lvlIdx topo a < lvlIdx topo b := by
    intro a b ⟨hab, hne⟩
    obtain ⟨i, j, hij, hi, hj, ha, hb⟩ := hord a b hab hne
    have hca : topo.countP (fun t => decide (a ∈ t)) = 1 :=
      hcount a ⟨(a, b), hab, Or.inl rfl⟩
    have hcb : topo.countP (fun t => decide (b ∈ t)) = 1 :=
      hcount b ⟨(a, b), hab, Or.inr rfl⟩
    rw [lvlIdx_eq hi hca ha, lvlIdx_eq hj hcb hb]
    exact hij
  have hchain2 : List.Chain (fun a b => lvlIdx topo a < lvlIdx topo b) v (l ++ [v]) :=
    hchain.imp himp
  haveI : IsTrans Nat (fun a b => lvlIdx topo a < lvlIdx topo b) :=
    ⟨fun _ _ _ => Nat.lt_trans⟩
  have hpw := List.chain_iff_pairwise.1 hchain2
  have := (List.pairwise_cons.1 hpw).1 v (by simp)
  omega

end CT

namespace CT

/-! ### Loop invariants for the layering loop -/

theorem countP_eq_one_of_placed {topo : Topology} {n : Nat}
    (hd : topo.Pairwise (fun a b => ∀ m, m ∈ a → m ∉ b)) (hp : Placed topo n) :
    topo.countP (fun l => decide (n ∈ l)) = 1 := by
  induction topo with
  | nil => rcases hp with ⟨l, hl, _⟩; cases hl
  | cons l ls ih =>
    obtain ⟨hcross, hpair⟩ := List.pairwise_cons.1 hd
    rw [List.countP_cons]
    by_cases hl : n ∈ l
    · rw [if_pos (by simpa using hl)]
      have hz : ls.countP (fun t => decide (n ∈ t)) = 0 :=
        List.countP_eq_zero.2 (fun b hb => by simpa using hcross b hb n hl)
      omega
    · rw [if_neg (by simpa using hl)]
      have hp2 : Placed ls n := by
        rcases hp with ⟨t, ht, hn⟩
        rcases List.mem_cons.1 ht with rfl | ht2
        · exact absurd hn hl
        · exact ⟨t, ht2, hn⟩
      simpa using ih hpair hp2

theorem placed_take_get {topo : Topology} {j u : Nat} (h : Placed (topo.take j) u) :
    ∃ i, ∃ hi : i < topo.length, i < j ∧ u ∈ topo.get ⟨i, hi⟩ := by
  rcases h with ⟨l, hl, hu⟩
  rcases List.mem_iff_get.1 hl with ⟨⟨i, hi⟩, hget⟩
  have hi2 := hi
  rw [List.length_take] at hi2
  have hlen : i < topo.length := by omega
  have hij : i < j := by omega
  refine ⟨i, hlen, hij, ?_⟩
  have hgg : (topo.take j).get ⟨i, hi⟩ = topo.get ⟨i, hlen⟩ := by
    simp [List.getElem_take]
  rw [hgg] at hget
  rw [hget]
  exact hu

theorem placed_get {topo : Topology} {v : Nat} (h : Placed topo v) :
    ∃ j, ∃ hj : j < topo.length, v ∈ topo.get ⟨j, hj⟩ := by
  rcases h with ⟨l, hl, hv⟩
  rcases List.mem_iff_get.1 hl with ⟨⟨j, hj⟩, hget⟩
  exact ⟨j, hj, by rw [hget]; exact hv⟩

theorem mem_dependencyless {tracker : NSet} {ins : NMap} {topo : Topology} {n : Nat} :
    n ∈ tracker.filter (fun n => (mapGetD ins n).isEmpty && !placedB topo n) ↔
      n ∈ tracker ∧ mapGetD ins n = [] ∧ ¬ Placed topo n := by
  rw [List.mem_filter]
  constructor
  · rintro ⟨h1, h2⟩
    rw [Bool.and_eq_true] at h2
    refine ⟨h1, List.isEmpty_iff.1 h2.1, ?_⟩
    have h3 := h2.2
    rw [Bool.not_eq_true'] at h3
    exact placedB_false_iff.1 h3
  · rintro ⟨h1, h2, h3⟩
    refine ⟨h1, ?_⟩
    rw [Bool.and_eq_true]
    refine ⟨List.isEmpty_iff.2 h2, ?_⟩
    rw [Bool.not_eq_true']
    exact placedB_false_iff.2 h3

theorem LoopInv_step {tracker : NSet} {P : Nat → Nat → Prop} {ins : NMap} {topo : Topology}
    (inv : LoopInv tracker P ins topo) (dep : NSet)
    (hdep : ∀ n, n ∈ dep ↔ n ∈ tracker ∧ mapGetD ins n = [] ∧ ¬ Placed topo n) :
    LoopInv tracker P (removeDeps ins dep) (topo ++ [dep]) := by
  constructor
  · rw [List.pairwise_append]
    refine ⟨inv.disj, by simp, ?_⟩
    intro a ha b hb n hna
    rcases List.mem_singleton.1 hb with rfl
    intro hnb
    exact ((hdep n).1 hnb).2.2 ⟨a, ha, hna⟩
  · intro l hl n hn
    rcases List.mem_append.1 hl with h | h
    · exact inv.lvlsub l h n hn
    · rcases List.mem_singleton.1 h with rfl
      exact ((hdep n).1 hn).1
  · intro v hv hnp u
    have hnp1 : ¬ Placed topo v := fun h => hnp (Placed_append.2 (Or.inl h))
    have hnp2 : v ∉ dep := fun h => hnp (Placed_append.2 (Or.inr (Placed_single.2 h)))
    rw [mapGetD_removeDeps, if_neg hnp2, List.mem_filter]
    rw [inv.insIff v hv hnp1 u]
    constructor
    · rintro ⟨⟨hP, hu⟩, hdec⟩
      refine ⟨hP, ?_⟩
      intro hplaced
      rcases Placed_append.1 hplaced with h | h
      · exact hu h
      · rw [Bool.not_eq_true', decide_eq_false_iff_not] at hdec
        exact hdec (Placed_single.1 h)
    · rintro ⟨hP, hu⟩
      have hu1 : ¬ Placed topo u := fun h => hu (Placed_append.2 (Or.inl h))
      have hu2 : u ∉ dep := fun h => hu (Placed_append.2 (Or.inr (Placed_single.2 h)))
      refine ⟨⟨hP, hu1⟩, ?_⟩
      rw [Bool.not_eq_true', decide_eq_false_iff_not]
      exact hu2
  · intro u v hP j hj hvj
    have hlen : (topo ++ [dep]).length = topo.length + 1 := by simp
    by_cases hjlt : j < topo.length
    · have hget : (topo ++ [dep]).get ⟨j, hj⟩ = topo.get ⟨j, hjlt⟩ := by
        simp [List.getElem_append_left hjlt]
      rw [hget] at hvj
      have := inv.ordered u v hP j hjlt hvj
      rwa [List.take_append_of_le_length (Nat.le_of_lt hjlt)]
    · have hjeq : j = topo.length := by omega
      subst hjeq
      have hget : (topo ++ [dep]).get ⟨topo.length, hj⟩ = dep := by
        simp
      rw [hget] at hvj
      obtain ⟨hvt, hve, hvp⟩ := (hdep v).1 hvj
      have htake : (topo ++ [dep]).take topo.length = topo := by
        rw [List.take_append_of_le_length (Nat.le_refl _), List.take_length]
      rw [htake]
      by_contra hplaced
      have := (inv.insIff v hvt hvp u).2 ⟨hP, hplaced⟩
      rw [hve] at this
      cases this

theorem acyclicLoop_succ_eq (tracker : NSet) (fuel : Nat) (ins : NMap) (topo : Topology) :
    acyclicLoop tracker (fuel+1) ins topo =
      (if (tracker.filter (fun n => (mapGetD ins n).isEmpty && !placedB topo n)).isEmpty then
        if tracker.all (fun n => placedB topo n) then some (Except.ok topo)
        else some (Except.error cyclicGraphMsg)
      else acyclicLoop tracker fuel
        (removeDeps ins (tracker.filter (fun n => (mapGetD ins n).isEmpty && !placedB topo n)))
        (topo ++ [tracker.filter (fun n => (mapGetD ins n).isEmpty && !placedB topo n)])) := rfl

theorem acyclicLoop_spec (tracker : NSet) (P : Nat → Nat → Prop)
    (Hmem : ∀ u v, P u v → u ∈ tracker ∧ v ∈ tracker) :
    ∀ fuel ins topo, LoopInv tracker P ins topo →
      (∀ res, acyclicLoop tracker fuel ins topo = some (Except.ok res) →
        (∀ n ∈ tracker, res.countP (fun l => decide (n ∈ l)) = 1) ∧
        (∀ l ∈ res, ∀ n ∈ l, n ∈ tracker) ∧
        (∀ u v, P u v → ∃ i j, i < j ∧ ∃ hi : i < res.length,
            ∃ hj : j < res.length, u ∈ res.get ⟨i, hi⟩ ∧ v ∈ res.get ⟨j, hj⟩)) ∧
      (∀ msg, acyclicLoop tracker fuel ins topo = some (Except.error msg) →
        msg = cyclicGraphMsg ∧ ∃ v l, List.Chain P v (l ++ [v])) := by
  intro fuel
  induction fuel with
  | zero =>
    intro ins topo _
    constructor
    · intro res h
      cases h
    · intro msg h
      cases h
  | succ fuel ih =>
    intro ins topo inv
    rw [acyclicLoop_succ_eq]
    by_cases hde : (tracker.filter
        (fun n => (mapGetD ins n).isEmpty && !placedB topo n)).isEmpty = true
    · rw [if_pos hde]
      by_cases hall : tracker.all (fun n => placedB topo n) = true
      · rw [if_pos hall]
        constructor
        · intro res h
          have hres : res = topo := by
            injection h with h2
            injection h2 with h3
            exact h3.symm
          subst hres
          refine ⟨?_, inv.lvlsub, ?_⟩
          · intro n hn
            have hpl : Placed res n :=
              placedB_iff.1 (List.all_eq_true.1 hall n hn)
            exact countP_eq_one_of_placed inv.disj hpl
          · intro u v hP
            have hvt : v ∈ tracker := (Hmem u v hP).2
            have hpl : Placed res v := placedB_iff.1 (List.all_eq_true.1 hall v hvt)
            obtain ⟨j, hj, hvj⟩ := placed_get hpl
            have := inv.ordered u v hP j hj hvj
            obtain ⟨i, hi, hij, hui⟩ := placed_take_get this
            exact ⟨i, j, hij, hi, hj, hui, hvj⟩
        · intro msg h
          cases h
      · rw [if_neg hall]
        constructor
        · intro res h
          cases h
        · intro msg h
          have hmsg : msg = cyclicGraphMsg := by
            injection h with h2
            injection h2 with h3
            exact h3.symm
          refine ⟨hmsg, ?_⟩
          have hRne : tracker.filter (fun n => !placedB topo n) ≠ [] := by
            intro hnil
            apply hall
            rw [List.all_eq_true]
            intro n hn
            by_contra hpn
            have : n ∈ tracker.filter (fun n => !placedB topo n) := by
              rw [List.mem_filter]
              exact ⟨hn, by rw [Bool.not_eq_true']; exact Bool.eq_false_iff.2 hpn⟩
            rw [hnil] at this
            cases this
          apply cycle_of_mem_preds hRne
          intro v hv
          rw [List.mem_filter] at hv
          obtain ⟨hvt, hvp⟩ := hv
          have hvp2 : ¬ Placed topo v := by
            rw [Bool.not_eq_true'] at hvp
            exact placedB_false_iff.1 hvp
          have hgne : mapGetD ins v ≠ [] := by
            intro hnil
            have : v ∈ tracker.filter
                (fun n => (mapGetD ins n).isEmpty && !placedB topo n) :=
              mem_dependencyless.2 ⟨hvt, hnil, hvp2⟩
            rw [List.isEmpty_iff.1 hde] at this
            cases this
          obtain ⟨u, hu⟩ := List.exists_mem_of_ne_nil _ hgne
          have := (inv.insIff v hvt hvp2 u).1 hu
          refine ⟨u, ?_, this.1⟩
          rw [List.mem_filter]
          refine ⟨(Hmem u v this.1).1, ?_⟩
          rw [Bool.not_eq_true']
          exact placedB_false_iff.2 this.2
    · rw [if_neg hde]
      have hstep := LoopInv_step inv
        (tracker.filter (fun n => (mapGetD ins n).isEmpty && !placedB topo n))
        (fun n => mem_dependencyless)
      exact ih _ _ hstep

theorem acyclicLoop_isSome (tracker : NSet) :
    ∀ fuel ins topo, (tracker.filter (fun n => !placedB topo n)).length < fuel →
      (acyclicLoop tracker fuel ins topo).isSome = true := by
  intro fuel
  induction fuel with
  | zero =>
    intro ins topo h
    omega
  | succ fuel ih =>
    intro ins topo h
    rw [acyclicLoop_succ_eq]
    by_cases hde : (tracker.filter
        (fun n => (mapGetD ins n).isEmpty && !placedB topo n)).isEmpty = true
    · rw [if_pos hde]
      by_cases hall : tracker.all (fun n => placedB topo n) = true
      · rw [if_pos hall]
        rfl
      · rw [if_neg hall]
        rfl
    · rw [if_neg hde]
      apply ih
      have hne : tracker.filter
          (fun n => (mapGetD ins n).isEmpty && !placedB topo n) ≠ [] := by
        intro hnil
        rw [← List.isEmpty_iff] at hnil
        exact hde hnil
      obtain ⟨w, hw⟩ := List.exists_mem_of_ne_nil _ hne
      obtain ⟨hwt, hwe, hwp⟩ := mem_dependencyless.1 hw
      have hlt : (tracker.filter (fun n =>
            !placedB (topo ++ [tracker.filter
              (fun n => (mapGetD ins n).isEmpty && !placedB topo n)]) n)).length <
          (tracker.filter (fun n => !placedB topo n)).length := by
        apply length_filter_lt_of_imp
        · intro x hx
          rw [Bool.not_eq_true'] at hx ⊢
          rw [placedB_false_iff] at hx ⊢
          intro hpl
          exact hx (Placed_append.2 (Or.inl hpl))
        · exact hwt
        · rw [Bool.not_eq_true']
          exact placedB_false_iff.2 hwp
        · have hpw : placedB (topo ++ [tracker.filter
              (fun n => (mapGetD ins n).isEmpty && !placedB topo n)]) w = true :=
            placedB_iff.2 (Placed_append.2 (Or.inr (Placed_single.2 hw)))
          rw [hpw]
          rfl
      omega

end CT

namespace CT

/-! ### acyclic_toposort: totality and characterisation -/

theorem LoopInv_init (edges : List Edge) :
    LoopInv (acyclicBuild edges).2 (EdgeRel edges) (acyclicBuild edges).1 [] := by
  constructor
  · simp
  · intro l hl
    cases hl
  · intro v _ _ u
    rw [acyclicBuild_getD]
    constructor
    · intro h
      exact ⟨h, Placed_nil⟩
    · intro h
      exact h.1
  · intro u v _ j hj
    simp at hj

theorem EdgeRel_mem_tracker (edges : List Edge) :
    ∀ u v, EdgeRel edges u v →
      u ∈ (acyclicBuild edges).2 ∧ v ∈ (acyclicBuild edges).2 := by
  intro u v ⟨h, _⟩
  constructor
  · exact (acyclicBuild_tracker edges u).2 ⟨(u, v), h, Or.inl rfl⟩
  · exact (acyclicBuild_tracker edges v).2 ⟨(u, v), h, Or.inr rfl⟩

theorem acyclicLoop_init_isSome (edges : List Edge) :
    (acyclicLoop (acyclicBuild edges).2 ((acyclicBuild edges).2.length + 1)
      (acyclicBuild edges).1 []).isSome = true := by
  apply acyclicLoop_isSome
  exact Nat.lt_succ_of_le (List.length_filter_le _ _)

theorem acyclic_toposort_cases (edges : List Edge) :
    (∃ topo, acyclic_toposort edges = Except.ok topo) ∨
      acyclic_toposort edges = Except.error cyclicGraphMsg := by
  have hs := acyclicLoop_init_isSome edges
  rw [Option.isSome_iff_exists] at hs
  obtain ⟨x, hx⟩ := hs
  have hval : acyclic_toposort edges = x := by
    show (acyclicLoop (acyclicBuild edges).2 ((acyclicBuild edges).2.length + 1)
        (acyclicBuild edges).1 []).getD (Except.error fuelMsg) = x
    rw [hx]
    rfl
  cases x with
  | ok t => exact Or.inl ⟨t, hval⟩
  | error msg =>
    right
    have := ((acyclicLoop_spec (acyclicBuild edges).2 (EdgeRel edges)
      (EdgeRel_mem_tracker edges) ((acyclicBuild edges).2.length + 1)
      (acyclicBuild edges).1 [] (LoopInv_init edges)).2 msg hx).1
    rw [hval, this]

theorem acyclic_ok_props {edges : List Edge} {topo : Topology}
    (h : acyclic_toposort edges = Except.ok topo) :
    (∀ n, Mentioned edges n → topo.countP (fun l => decide (n ∈ l)) = 1) ∧
    (∀ l ∈ topo, ∀ n ∈ l, Mentioned edges n) ∧
    (∀ u v, (u, v) ∈ edges → u ≠ v → ∃ i j, i < j ∧ ∃ hi : i < topo.length,
        ∃ hj : j < topo.length, u ∈ topo.get ⟨i, hi⟩ ∧ v ∈ topo.get ⟨j, hj⟩) := by
  have hs := acyclicLoop_init_isSome edges
  rw [Option.isSome_iff_exists] at hs
  obtain ⟨x, hx⟩ := hs
  have hval : acyclic_toposort edges = x := by
    show (acyclicLoop (acyclicBuild edges).2 ((acyclicBuild edges).2.length + 1)
        (acyclicBuild edges).1 []).getD (Except.error fuelMsg) = x
    rw [hx]
    rfl
  rw [h] at hval
  rw [← hval] at hx
  have hspec := (acyclicLoop_spec (acyclicBuild edges).2 (EdgeRel edges)
    (EdgeRel_mem_tracker edges) ((acyclicBuild edges).2.length + 1)
    (acyclicBuild edges).1 [] (LoopInv_init edges)).1 topo hx
  refine ⟨?_, ?_, ?_⟩
  · intro n hn
    exact hspec.1 n ((acyclicBuild_tracker edges n).2 hn)
  · intro l hl n hn
    exact (acyclicBuild_tracker edges n).1 (hspec.2.1 l hl n hn)
  · intro u v huv hne
    exact hspec.2.2 u v ⟨huv, hne⟩

theorem acyclic_err_cycle {edges : List Edge} {msg : String}
    (h : acyclic_toposort edges = Except.error msg) :
    msg = cyclicGraphMsg ∧ HasCycle edges := by
  have hs := acyclicLoop_init_isSome edges
  rw [Option.isSome_iff_exists] at hs
  obtain ⟨x, hx⟩ := hs
  have hval : acyclic_toposort edges = x := by
    show (acyclicLoop (acyclicBuild edges).2 ((acyclicBuild edges).2.length + 1)
        (acyclicBuild edges).1 []).getD (Except.error fuelMsg) = x
    rw [hx]
    rfl
  rw [h] at hval
  rw [← hval] at hx
  have hspec := (acyclicLoop_spec (acyclicBuild edges).2 (EdgeRel edges)
    (EdgeRel_mem_tracker edges) ((acyclicBuild edges).2.length + 1)
    (acyclicBuild edges).1 [] (LoopInv_init edges)).2 msg hx
  exact ⟨hspec.1, hspec.2⟩

theorem noCycle_of_acyclic_ok {edges : List Edge} {topo : Topology}
    (h : acyclic_toposort edges = Except.ok topo) : ¬ HasCycle edges := by
  obtain ⟨h1, _, h3⟩ := acyclic_ok_props h
  exact no_cycle_of_ranking h1 h3

theorem acyclic_ok_of_noCycle {edges : List Edge} (h : ¬ HasCycle edges) :
    ∃ topo, acyclic_toposort edges = Except.ok topo := by
  rcases acyclic_toposort_cases edges with ht | herr
  · exact ht
  · exact absurd (acyclic_err_cycle herr).2 h

end CT

namespace CT

/-! ### combinations -/

theorem mem_combinations {α : Type} :
    ∀ {l : List α} {r : Nat} {s : List α},
      s ∈ combinations r l ↔ s.length = r ∧ s.Sublist l := by
  intro l
  induction l with
  | nil =>
    intro r s
    cases r with
    | zero =>
      simp only [combinations, List.mem_singleton]
      constructor
      · rintro rfl
        exact ⟨rfl, List.Sublist.refl _⟩
      · rintro ⟨hl, hs⟩
        exact List.sublist_nil.1 hs
    | succ r =>
      simp only [combinations, List.not_mem_nil, false_iff, not_and]
      intro hl hs
      rw [List.sublist_nil.1 hs] at hl
      simp at hl
  | cons x xs ih =>
    intro r s
    cases r with
    | zero =>
      simp only [combinations, List.mem_singleton]
      constructor
      · rintro rfl
        exact ⟨rfl, List.nil_sublist _⟩
      · rintro ⟨hl, _⟩
        exact List.length_eq_zero.1 hl
    | succ r =>
      show s ∈ (combinations r xs).map (fun c => x :: c) ++ combinations (r+1) xs ↔ _
      rw [List.mem_append, List.mem_map]
      constructor
      · rintro (⟨c, hc, rfl⟩ | h)
        · obtain ⟨hlen, hsub⟩ := ih.1 hc
          exact ⟨by simp [hlen], List.Sublist.cons₂ x hsub⟩
        · obtain ⟨hlen, hsub⟩ := ih.1 h
          exact ⟨hlen, hsub.cons x⟩
      · rintro ⟨hlen, hsub⟩
        rcases List.sublist_cons_iff.1 hsub with h | ⟨t, rfl, ht⟩
        · exact Or.inr (ih.2 ⟨hlen, h⟩)
        · refine Or.inl ⟨t, ih.2 ⟨?_, ht⟩, rfl⟩
          simpa using hlen

theorem combinations_ne_nil {α : Type} {l : List α} {r : Nat} (h : r ≤ l.length) :
    combinations r l ≠ [] := by
  intro hnil
  have : l.take r ∈ combinations r l :=
    mem_combinations.2 ⟨by rw [List.length_take]; omega, List.take_sublist r l⟩
  rw [hnil] at this
  cases this

/-! ### removeNodesF, recreateEdgesFromIns, removeEdgesPair -/

theorem removeNodes_part_getD (m : NMap) (rm : NSet) (v : Nat) :
    mapGetD ((m.filter (fun p => !decide (p.1 ∈ rm))).map
      (fun p => (p.1, p.2.filter (fun x => !decide (x ∈ rm))))) v =
      if v ∈ rm then [] else (mapGetD m v).filter (fun x => !decide (x ∈ rm)) := by
  induction m with
  | nil =>
    simp only [List.filter_nil, List.map_nil]
    split <;> rfl
  | cons p m ih =>
    by_cases hp : p.1 ∈ rm
    · have hfil : (p :: m).filter (fun p => !decide (p.1 ∈ rm))
          = m.filter (fun p => !decide (p.1 ∈ rm)) :=
        List.filter_cons_of_neg (by simp [hp])
      rw [hfil, ih]
      by_cases hv : p.1 = v
      · subst hv
        rw [if_pos hp, if_pos hp]
      · have : mapGetD (p :: m) v = mapGetD m v := by simp [mapGetD, mlookup, hv]
        rw [this]
    · have hfil : (p :: m).filter (fun p => !decide (p.1 ∈ rm))
          = p :: m.filter (fun p => !decide (p.1 ∈ rm)) :=
        List.filter_cons_of_pos (by simp [hp])
      rw [hfil, List.map_cons]
      by_cases hv : p.1 = v
      · subst hv
        rw [if_neg hp]
        simp [mapGetD, mlookup]
      · have h1 : mapGetD ((p.1, p.2.filter (fun x => !decide (x ∈ rm))) ::
            (m.filter (fun p => !decide (p.1 ∈ rm))).map
              (fun p => (p.1, p.2.filter (fun x => !decide (x ∈ rm))))) v
            = mapGetD ((m.filter (fun p => !decide (p.1 ∈ rm))).map
              (fun p => (p.1, p.2.filter (fun x => !decide (x ∈ rm))))) v := by
          simp [mapGetD, mlookup, hv]
        have h2 : mapGetD (p :: m) v = mapGetD m v := by simp [mapGetD, mlookup, hv]
        rw [h1, ih, h2]

theorem mapGetD_removeNodesF_fst (ins outs : NMap) (rm : NSet) (v : Nat) :
    mapGetD (removeNodesF ins outs rm).1 v =
      if v ∈ rm then [] else (mapGetD ins v).filter (fun x => !decide (x ∈ rm)) :=
  removeNodes_part_getD ins rm v

theorem mapGetD_removeNodesF_snd (ins outs : NMap) (rm : NSet) (v : Nat) :
    mapGetD (removeNodesF ins outs rm).2 v =
      if v ∈ rm then [] else (mapGetD outs v).filter (fun x => !decide (x ∈ rm)) :=
  removeNodes_part_getD outs rm v

theorem mem_getD_removeNodesF_fst {ins outs : NMap} {rm : NSet} {u v : Nat} :
    u ∈ mapGetD (removeNodesF ins outs rm).1 v ↔
      u ∈ mapGetD ins v ∧ u ∉ rm ∧ v ∉ rm := by
  rw [mapGetD_removeNodesF_fst]
  by_cases hv : v ∈ rm
  · rw [if_pos hv]
    simp [hv]
  · rw [if_neg hv]
    rw [List.mem_filter]
    simp [hv]

theorem mapKeys_removeNodes_part (m : NMap) (rm : NSet) :
    mapKeys ((m.filter (fun p => !decide (p.1 ∈ rm))).map
      (fun p => (p.1, p.2.filter (fun x => !decide (x ∈ rm))))) =
      (mapKeys m).filter (fun n => !decide (n ∈ rm)) := by
  induction m with
  | nil => rfl
  | cons p m ih =>
    have hR : mapKeys (p :: m) = p.1 :: mapKeys m := rfl
    by_cases hp : p.1 ∈ rm
    · rw [List.filter_cons_of_neg (by simp [hp]), hR]
      have hR2 : List.filter (fun n => !decide (n ∈ rm)) (p.1 :: mapKeys m)
          = List.filter (fun n => !decide (n ∈ rm)) (mapKeys m) :=
        List.filter_cons_of_neg (by simp [hp])
      rw [hR2]
      exact ih
    · rw [List.filter_cons_of_pos (by simp [hp]), List.map_cons, hR,
        List.filter_cons_of_pos (by simp [hp])]
      have hL : mapKeys ((p.1, p.2.filter (fun x => !decide (x ∈ rm))) ::
          (m.filter (fun p => !decide (p.1 ∈ rm))).map
            (fun p => (p.1, p.2.filter (fun x => !decide (x ∈ rm))))) =
          p.1 :: mapKeys ((m.filter (fun p => !decide (p.1 ∈ rm))).map
            (fun p => (p.1, p.2.filter (fun x => !decide (x ∈ rm))))) := rfl
      rw [hL, ih]

theorem mem_recreateEdges {ins : NMap} {e : Edge} :
    e ∈ recreateEdgesFromIns ins ↔ ∃ p ∈ ins, p.1 = e.2 ∧ e.1 ∈ p.2 := by
  unfold recreateEdgesFromIns
  rw [List.mem_flatMap]
  constructor
  · rintro ⟨p, hp, hmem⟩
    rw [List.mem_map] at hmem
    obtain ⟨s, hs, hse⟩ := hmem
    refine ⟨p, hp, ?_, ?_⟩
    · rw [← hse]
    · rw [← hse] at *
      exact hs
  · rintro ⟨p, hp, h1, h2⟩
    refine ⟨p, hp, ?_⟩
    rw [List.mem_map]
    refine ⟨e.1, h2, ?_⟩
    rw [h1]

theorem mem_recreateEdges_getD {ins : NMap} (hk : (mapKeys ins).Nodup) {e : Edge} :
    e ∈ recreateEdgesFromIns ins ↔ e.1 ∈ mapGetD ins e.2 := by
  rw [mem_recreateEdges]
  constructor
  · rintro ⟨p, hp, h1, h2⟩
    have : mlookup e.2 ins = some p.2 := by
      rw [← h1]
      exact entry_mlookup hk (by simpa using hp)
    rw [mapGetD, this]
    exact h2
  · intro h
    obtain ⟨s, hs, hmem⟩ := mem_mapGetD_entry h
    exact ⟨(e.2, s), mlookup_entry hs, rfl, hmem⟩

theorem recreate_nil_iff {ins : NMap} :
    recreateEdgesFromIns ins = [] ↔ ∀ p ∈ ins, p.2 = [] := by
  unfold recreateEdgesFromIns
  rw [List.flatMap_eq_nil_iff]
  constructor
  · intro h p hp
    exact List.map_eq_nil_iff.1 (h p hp)
  · intro h p hp
    rw [h p hp]
    rfl

theorem recreate_nodup {ins : NMap} (hk : (mapKeys ins).Nodup)
    (hv : ∀ p ∈ ins, p.2.Nodup) : (recreateEdgesFromIns ins).Nodup := by
  induction ins with
  | nil => exact List.nodup_nil
  | cons p m ih =>
    show (p.2.map (fun s => (s, p.1)) ++ recreateEdgesFromIns m).Nodup
    rw [List.nodup_append]
    have hk2 : (p.1 :: mapKeys m).Nodup := by simpa [mapKeys] using hk
    refine ⟨?_, ?_, ?_⟩
    · apply List.Nodup.map
      · intro a b hab
        injection hab
      · exact hv p (List.mem_cons_self _ _)
    · exact ih (List.nodup_cons.1 hk2).2 (fun q hq => hv q (List.mem_cons_of_mem _ hq))
    · intro e he he2
      rw [List.mem_map] at he
      obtain ⟨s, _, hse⟩ := he
      rw [mem_recreateEdges] at he2
      obtain ⟨q, hq, hq1, _⟩ := he2
      apply (List.nodup_cons.1 hk2).1
      have : e.2 = p.1 := by rw [← hse]
      rw [← this, ← hq1]
      exact List.mem_map.2 ⟨q, hq, rfl⟩

theorem removeEdgesPair_fst (ins outs : NMap) (ses : ESet) :
    (removeEdgesPair ins outs ses).1 =
      ses.foldl (fun m e =>
        mapAdjust m e.2 (fun s => s.filter (fun x => !decide (x = e.1)))) ins := by
  induction ses generalizing ins outs with
  | nil => rfl
  | cons e rest ih =>
    show (removeEdgesPair (mapAdjust ins e.2 _) (mapAdjust outs e.1 _) rest).1 = _
    rw [ih]
    rfl

theorem mem_getD_removeEdges_fold (ses : ESet) :
    ∀ (m : NMap) (u v : Nat),
      u ∈ mapGetD (ses.foldl (fun m e =>
          mapAdjust m e.2 (fun s => s.filter (fun x => !decide (x = e.1)))) m) v ↔
        u ∈ mapGetD m v ∧ (u, v) ∉ ses := by
  induction ses with
  | nil =>
    intro m u v
    simp
  | cons e rest ih =>
    intro m u v
    rw [List.foldl_cons, ih]
    have hadj : mapGetD (mapAdjust m e.2 (fun s => s.filter (fun x => !decide (x = e.1)))) v
        = if v = e.2 then (mapGetD m v).filter (fun x => !decide (x = e.1))
          else mapGetD m v := mapGetD_adjust m e.2 v _ rfl
    rw [hadj]
    by_cases hv : v = e.2
    · rw [if_pos hv]
      rw [List.mem_filter]
      constructor
      · rintro ⟨⟨h1, h2⟩, h3⟩
        refine ⟨h1, ?_⟩
        intro hmem
        rcases List.mem_cons.1 hmem with heq | hmem2
        · rw [Bool.not_eq_true', decide_eq_false_iff_not] at h2
          apply h2
          have := congrArg Prod.fst heq
          exact this
        · exact h3 hmem2
      · rintro ⟨h1, h2⟩
        have hne : ¬ (u, v) = e := fun hh => h2 (by rw [hh]; exact List.mem_cons_self _ _)
        refine ⟨⟨h1, ?_⟩, fun hmem => h2 (List.mem_cons_of_mem _ hmem)⟩
        rw [Bool.not_eq_true', decide_eq_false_iff_not]
        intro hu
        apply hne
        rw [hu, hv]
    · rw [if_neg hv]
      constructor
      · rintro ⟨h1, h2⟩
        refine ⟨h1, ?_⟩
        intro hmem
        rcases List.mem_cons.1 hmem with heq | hmem2
        · exact hv (congrArg Prod.snd heq)
        · exact h2 hmem2
      · rintro ⟨h1, h2⟩
        exact ⟨h1, fun hmem => h2 (List.mem_cons_of_mem _ hmem)⟩

theorem mem_getD_removeEdgesPair_fst {ins outs : NMap} {ses : ESet} {u v : Nat} :
    u ∈ mapGetD (removeEdgesPair ins outs ses).1 v ↔
      u ∈ mapGetD ins v ∧ (u, v) ∉ ses := by
  rw [removeEdgesPair_fst]
  exact mem_getD_removeEdges_fold ses ins u v

theorem mapKeys_removeEdges_fold (ses : ESet) :
    ∀ m : NMap, mapKeys (ses.foldl (fun m e =>
        mapAdjust m e.2 (fun s => s.filter (fun x => !decide (x = e.1)))) m) = mapKeys m := by
  induction ses with
  | nil => intro m; rfl
  | cons e rest ih =>
    intro m
    rw [List.foldl_cons, ih, mapKeys_adjust]

theorem length_removeEdges_fold (ses : ESet) :
    ∀ m : NMap, (ses.foldl (fun m e =>
        mapAdjust m e.2 (fun s => s.filter (fun x => !decide (x = e.1)))) m).length
      = m.length := by
  induction ses with
  | nil => intro m; rfl
  | cons e rest ih =>
    intro m
    rw [List.foldl_cons, ih, length_adjust]

end CT

namespace CT

/-! ### edgeCount -/

theorem edgeCount_cons (p : Nat × NSet) (m : NMap) :
    edgeCount (p :: m) = p.2.length + edgeCount m := by
  simp [edgeCount]

theorem edgeCount_adjust_filter_le (m : NMap) (k : Nat) (p : Nat → Bool) :
    edgeCount (mapAdjust m k (fun s => s.filter p)) ≤ edgeCount m := by
  induction m with
  | nil => exact Nat.le_refl _
  | cons q m ih =>
    show edgeCount ((if q.1 = k then (q.1, q.2.filter p) else q)
        :: mapAdjust m k (fun s => s.filter p)) ≤ _
    by_cases hq : q.1 = k
    · rw [if_pos hq, edgeCount_cons, edgeCount_cons]
      exact Nat.add_le_add (List.length_filter_le p q.2) ih
    · rw [if_neg hq, edgeCount_cons, edgeCount_cons]
      exact Nat.add_le_add_left ih _

theorem edgeCount_adjust_filter_lt {m : NMap} {k : Nat} {p : Nat → Bool} {x : Nat}
    (hx : x ∈ mapGetD m k) (hp : p x = false) :
    edgeCount (mapAdjust m k (fun s => s.filter p)) < edgeCount m := by
  induction m with
  | nil => exact absurd hx (by simp [mapGetD, mlookup])
  | cons q m ih =>
    show edgeCount ((if q.1 = k then (q.1, q.2.filter p) else q)
        :: mapAdjust m k (fun s => s.filter p)) < _
    by_cases hq : q.1 = k
    · have hxq : x ∈ q.2 := by
        have : mapGetD (q :: m) k = q.2 := by simp [mapGetD, mlookup, hq]
        rwa [this] at hx
      rw [if_pos hq, edgeCount_cons, edgeCount_cons]
      have hsnd : ((q.1, q.2.filter p) : Nat × NSet).2 = q.2.filter p := rfl
      rw [hsnd]
      have h1 : (q.2.filter p).length < q.2.length :=
        List.length_filter_lt_length_iff_exists.mpr ⟨x, hxq, by simp [hp]⟩
      have h2 := edgeCount_adjust_filter_le m k p
      omega
    · have hxm : x ∈ mapGetD m k := by
        have : mapGetD (q :: m) k = mapGetD m k := by simp [mapGetD, mlookup, hq]
        rwa [this] at hx
      rw [if_neg hq, edgeCount_cons, edgeCount_cons]
      have := ih hxm
      omega

theorem edgeCount_removeEdges_fold_le (ses : ESet) :
    ∀ m : NMap, edgeCount (ses.foldl (fun m e =>
      mapAdjust m e.2 (fun s => s.filter (fun x => !decide (x = e.1)))) m) ≤ edgeCount m := by
  induction ses with
  | nil => intro m; exact Nat.le_refl _
  | cons e rest ih =>
    intro m
    rw [List.foldl_cons]
    exact Nat.le_trans (ih _) (edgeCount_adjust_filter_le m e.2 _)

theorem edgeCount_removeEdges_fold_lt {ses : ESet} {m : NMap}
    (hne : ses ≠ []) (hpres : ∀ e ∈ ses, e.1 ∈ mapGetD m e.2) :
    edgeCount (ses.foldl (fun m e =>
      mapAdjust m e.2 (fun s => s.filter (fun x => !decide (x = e.1)))) m) < edgeCount m := by
  cases ses with
  | nil => exact absurd rfl hne
  | cons e rest =>
    rw [List.foldl_cons]
    have h1 : edgeCount (mapAdjust m e.2 (fun s => s.filter (fun x => !decide (x = e.1))))
        < edgeCount m :=
      edgeCount_adjust_filter_lt (hpres e (List.mem_cons_self _ _)) (by simp)
    exact Nat.lt_of_le_of_lt (edgeCount_removeEdges_fold_le rest _) h1

/-! ### generate_reduced_ins_outs -/

theorem mem_nodeBlock {ins outs : NMap} {node : Nat} {inc : NSet} {c : Cand} :
    c ∈ nodeBlock ins outs node inc ↔
      ∃ subset, subset.Sublist inc ∧ subset ≠ [] ∧
        c = ⟨(removeEdgesPair ins outs (subset.map (fun s => (s, node)))).1,
             (removeEdgesPair ins outs (subset.map (fun s => (s, node)))).2,
             subset.map (fun s => (s, node))⟩ := by
  unfold nodeBlock
  rw [List.mem_flatMap]
  constructor
  · rintro ⟨n, hn, hc⟩
    rw [List.mem_map] at hc
    obtain ⟨subset, hsub, hceq⟩ := hc
    obtain ⟨hlen, hsubl⟩ := mem_combinations.1 hsub
    rw [List.mem_range'] at hn
    obtain ⟨i, _, hni⟩ := hn
    refine ⟨subset, hsubl, ?_, hceq.symm⟩
    intro hnil
    rw [hnil] at hlen
    simp at hlen
    omega
  · rintro ⟨subset, hsubl, hnil, rfl⟩
    refine ⟨subset.length, ?_, ?_⟩
    · rw [List.mem_range']
      have h1 : 1 ≤ subset.length := List.length_pos.2 hnil
      have h2 : subset.length ≤ inc.length := hsubl.length_le
      exact ⟨subset.length - 1, by omega, by omega⟩
    · rw [List.mem_map]
      exact ⟨subset, mem_combinations.2 ⟨rfl, hsubl⟩, rfl⟩

theorem mem_fallbackBlock {edges : ESet} {ins outs : NMap} {c : Cand} :
    c ∈ fallbackBlock edges ins outs ↔
      ∃ ses, ses.Sublist edges ∧ ses ≠ [] ∧
        c = ⟨(removeEdgesPair ins outs ses).1, (removeEdgesPair ins outs ses).2, ses⟩ := by
  unfold fallbackBlock
  rw [List.mem_flatMap]
  constructor
  · rintro ⟨n, hn, hc⟩
    rw [List.mem_map] at hc
    obtain ⟨ses, hses, hceq⟩ := hc
    obtain ⟨hlen, hsubl⟩ := mem_combinations.1 hses
    rw [List.mem_range'] at hn
    obtain ⟨i, _, hni⟩ := hn
    refine ⟨ses, hsubl, ?_, hceq.symm⟩
    intro hnil
    rw [hnil] at hlen
    simp at hlen
    omega
  · rintro ⟨ses, hsubl, hnil, rfl⟩
    refine ⟨ses.length, ?_, ?_⟩
    · rw [List.mem_range']
      have h1 : 1 ≤ ses.length := List.length_pos.2 hnil
      have h2 : ses.length ≤ edges.length := hsubl.length_le
      exact ⟨ses.length - 1, by omega, by omega⟩
    · rw [List.mem_map]
      exact ⟨ses, mem_combinations.2 ⟨rfl, hsubl⟩, rfl⟩

theorem nodeBlock_ne_nil {ins outs : NMap} {node : Nat} {inc : NSet}
    (h : 1 ≤ inc.length) : nodeBlock ins outs node inc ≠ [] := by
  intro hnil
  unfold nodeBlock at hnil
  rw [List.flatMap_eq_nil_iff] at hnil
  have h1 : (1 : Nat) ∈ List.range' 1 inc.length := by
    rw [List.mem_range']
    exact ⟨0, by omega, by omega⟩
  have h2 := hnil 1 h1
  rw [List.map_eq_nil_iff] at h2
  exact combinations_ne_nil (by omega) h2

theorem primary_eq_nil_iff {ins outs : NMap} :
    (ins.flatMap (fun p => if p.2.length ≤ 1 then [] else nodeBlock ins outs p.1 p.2)) = [] ↔
      ∀ p ∈ ins, p.2.length ≤ 1 := by
  rw [List.flatMap_eq_nil_iff]
  constructor
  · intro h p hp
    by_contra hlen
    have h2 := h p hp
    rw [if_neg hlen] at h2
    exact nodeBlock_ne_nil (by omega) h2
  · intro h p hp
    rw [if_pos (h p hp)]

theorem generate_eq (edges : ESet) (ins outs : NMap) :
    generate_reduced_ins_outs edges ins outs =
      if (ins.flatMap (fun p =>
          if p.2.length ≤ 1 then [] else nodeBlock ins outs p.1 p.2)).isEmpty
      then fallbackBlock edges ins outs
      else ins.flatMap (fun p =>
          if p.2.length ≤ 1 then [] else nodeBlock ins outs p.1 p.2) := rfl

theorem generate_eq_fallback {edges : ESet} {ins outs : NMap}
    (h : ∀ p ∈ ins, p.2.length ≤ 1) :
    generate_reduced_ins_outs edges ins outs = fallbackBlock edges ins outs := by
  rw [generate_eq, if_pos]
  rw [List.isEmpty_iff]
  exact primary_eq_nil_iff.2 h

theorem generate_eq_primary {edges : ESet} {ins outs : NMap}
    (h : ∃ p ∈ ins, 2 ≤ p.2.length) :
    generate_reduced_ins_outs edges ins outs =
      ins.flatMap (fun p => if p.2.length ≤ 1 then [] else nodeBlock ins outs p.1 p.2) := by
  rw [generate_eq, if_neg]
  rw [List.isEmpty_iff]
  intro hnil
  obtain ⟨p, hp, hlen⟩ := h
  have := primary_eq_nil_iff.1 hnil p hp
  omega

theorem generate_ne_nil {edges : ESet} {ins outs : NMap} (h : edges ≠ []) :
    generate_reduced_ins_outs edges ins outs ≠ [] := by
  rw [generate_eq]
  by_cases hpe : (ins.flatMap (fun p =>
      if p.2.length ≤ 1 then [] else nodeBlock ins outs p.1 p.2)).isEmpty = true
  · rw [if_pos hpe]
    intro hnil
    unfold fallbackBlock at hnil
    rw [List.flatMap_eq_nil_iff] at hnil
    have h1 : (1 : Nat) ∈ List.range' 1 edges.length := by
      rw [List.mem_range']
      exact ⟨0, List.length_pos.2 h, by omega⟩
    have h2 := hnil 1 h1
    rw [List.map_eq_nil_iff] at h2
    exact combinations_ne_nil (List.length_pos.2 h) h2
  · rw [if_neg hpe]
    intro hnil
    rw [← List.isEmpty_iff] at hnil
    exact hpe hnil

theorem generate_cand_props {ce : ESet} {ins outs : NMap} {c : Cand}
    (hk : (mapKeys ins).Nodup) (hv : ∀ p ∈ ins, p.2.Nodup)
    (hce : ∀ e ∈ ce, e.1 ∈ mapGetD ins e.2) (hcnd : ce.Nodup)
    (hc : c ∈ generate_reduced_ins_outs ce ins outs) :
    c.rins = (removeEdgesPair ins outs c.forced).1 ∧
    c.routs = (removeEdgesPair ins outs c.forced).2 ∧
    c.forced ≠ [] ∧ c.forced.Nodup ∧
    (∀ e ∈ c.forced, e.1 ∈ mapGetD ins e.2) := by
  rw [generate_eq] at hc
  by_cases hpe : (ins.flatMap (fun p =>
      if p.2.length ≤ 1 then [] else nodeBlock ins outs p.1 p.2)).isEmpty = true
  · rw [if_pos hpe] at hc
    obtain ⟨ses, hsubl, hnil, rfl⟩ := mem_fallbackBlock.1 hc
    refine ⟨rfl, rfl, hnil, hsubl.nodup hcnd, ?_⟩
    intro e he
    exact hce e (hsubl.mem he)
  · rw [if_neg hpe] at hc
    rw [List.mem_flatMap] at hc
    obtain ⟨p, hp, hcp⟩ := hc
    by_cases hlen : p.2.length ≤ 1
    · rw [if_pos hlen] at hcp
      cases hcp
    · rw [if_neg hlen] at hcp
      obtain ⟨subset, hsubl, hnil, rfl⟩ := mem_nodeBlock.1 hcp
      have hincnd : subset.Nodup := hsubl.nodup (hv p hp)
      have hgd : mapGetD ins p.1 = p.2 := by
        have : mlookup p.1 ins = some p.2 := entry_mlookup hk (by simpa using hp)
        rw [mapGetD, this]
        rfl
      refine ⟨rfl, rfl, ?_, ?_, ?_⟩
      · intro hmn
        rw [List.map_eq_nil_iff] at hmn
        exact hnil hmn
      · apply List.Nodup.map
        · intro a b hab
          injection hab
        · exact hincnd
      · intro e he
        rw [List.mem_map] at he
        obtain ⟨s, hs, rfl⟩ := he
        show s ∈ mapGetD ins p.1
        rw [hgd]
        exact hsubl.mem hs

end CT

namespace CT

/-! ### RecInv preservation -/

theorem removeEdgesPair_snd (ins outs : NMap) (ses : ESet) :
    (removeEdgesPair ins outs ses).2 =
      ses.foldl (fun m e =>
        mapAdjust m e.1 (fun s => s.filter (fun x => !decide (x = e.2)))) outs := by
  induction ses generalizing ins outs with
  | nil => rfl
  | cons e rest ih =>
    show (removeEdgesPair (mapAdjust ins e.2 _) (mapAdjust outs e.1 _) rest).2 = _
    rw [ih]
    rfl

theorem mapKeys_removeEdges_fold_snd (ses : ESet) :
    ∀ m : NMap, mapKeys (ses.foldl (fun m e =>
        mapAdjust m e.1 (fun s => s.filter (fun x => !decide (x = e.2)))) m) = mapKeys m := by
  induction ses with
  | nil => intro m; rfl
  | cons e rest ih =>
    intro m
    rw [List.foldl_cons, ih, mapKeys_adjust]

theorem vn_adjust_filter {m : NMap} {k : Nat} {pf : Nat → Bool}
    (h : ∀ p ∈ m, p.2.Nodup) :
    ∀ p ∈ mapAdjust m k (fun s => s.filter pf), p.2.Nodup := by
  intro p hp
  rw [mapAdjust, List.mem_map] at hp
  obtain ⟨q, hq, heq⟩ := hp
  by_cases hqk : q.1 = k
  · rw [if_pos hqk] at heq
    rw [← heq]
    exact (h q hq).filter pf
  · rw [if_neg hqk] at heq
    rw [← heq]
    exact h q hq

theorem vn_removeEdges_fold (ses : ESet) :
    ∀ m : NMap, (∀ p ∈ m, p.2.Nodup) →
      ∀ p ∈ ses.foldl (fun m e =>
        mapAdjust m e.2 (fun s => s.filter (fun x => !decide (x = e.1)))) m, p.2.Nodup := by
  induction ses with
  | nil => intro m h; exact h
  | cons e rest ih =>
    intro m h
    rw [List.foldl_cons]
    exact ih _ (vn_adjust_filter h)

theorem RecInv_removeEdgesPair {ins outs : NMap} (h : RecInv ins outs) (ses : ESet) :
    RecInv (removeEdgesPair ins outs ses).1 (removeEdgesPair ins outs ses).2 := by
  constructor
  · rw [removeEdgesPair_fst, mapKeys_removeEdges_fold]
    exact h.knIns
  · rw [removeEdgesPair_snd, mapKeys_removeEdges_fold_snd]
    exact h.knOuts
  · intro n
    rw [removeEdgesPair_fst, removeEdgesPair_snd, mapKeys_removeEdges_fold,
      mapKeys_removeEdges_fold_snd]
    exact h.sync n
  · rw [removeEdgesPair_fst]
    exact vn_removeEdges_fold ses ins h.vnIns

theorem RecInv_removeNodesF {ins outs : NMap} (h : RecInv ins outs) (rm : NSet) :
    RecInv (removeNodesF ins outs rm).1 (removeNodesF ins outs rm).2 := by
  constructor
  · rw [show (removeNodesF ins outs rm).1 = (ins.filter (fun p => !decide (p.1 ∈ rm))).map
        (fun p => (p.1, p.2.filter (fun x => !decide (x ∈ rm)))) from rfl,
      mapKeys_removeNodes_part]
    exact h.knIns.filter _
  · rw [show (removeNodesF ins outs rm).2 = (outs.filter (fun p => !decide (p.1 ∈ rm))).map
        (fun p => (p.1, p.2.filter (fun x => !decide (x ∈ rm)))) from rfl,
      mapKeys_removeNodes_part]
    exact h.knOuts.filter _
  · intro n
    rw [show (removeNodesF ins outs rm).1 = (ins.filter (fun p => !decide (p.1 ∈ rm))).map
        (fun p => (p.1, p.2.filter (fun x => !decide (x ∈ rm)))) from rfl,
      show (removeNodesF ins outs rm).2 = (outs.filter (fun p => !decide (p.1 ∈ rm))).map
        (fun p => (p.1, p.2.filter (fun x => !decide (x ∈ rm)))) from rfl,
      mapKeys_removeNodes_part, mapKeys_removeNodes_part,
      List.mem_filter, List.mem_filter, h.sync n]
  · intro p hp
    rw [show (removeNodesF ins outs rm).1 = (ins.filter (fun p => !decide (p.1 ∈ rm))).map
        (fun p => (p.1, p.2.filter (fun x => !decide (x ∈ rm)))) from rfl] at hp
    rw [List.mem_map] at hp
    obtain ⟨q, hq, heq⟩ := hp
    rw [← heq]
    exact (h.vnIns q (List.mem_filter.1 hq).1).filter _

/-! ### findNodesWithEmptySet -/

theorem mem_findNodes {m : NMap} {n : Nat} :
    n ∈ findNodesWithEmptySet m ↔ ∃ p ∈ m, p.1 = n ∧ p.2 = [] := by
  unfold findNodesWithEmptySet
  rw [List.mem_map]
  constructor
  · rintro ⟨p, hp, hpn⟩
    rw [List.mem_filter] at hp
    exact ⟨p, hp.1, hpn, List.isEmpty_iff.1 hp.2⟩
  · rintro ⟨p, hp, h1, h2⟩
    exact ⟨p, List.mem_filter.2 ⟨hp, List.isEmpty_iff.2 h2⟩, h1⟩

theorem findNodes_sub_keys {m : NMap} {n : Nat} (h : n ∈ findNodesWithEmptySet m) :
    n ∈ mapKeys m := by
  obtain ⟨p, hp, h1, _⟩ := mem_findNodes.1 h
  rw [← h1]
  exact List.mem_map.2 ⟨p, hp, rfl⟩

theorem removeNodes_length_lt {ins outs : NMap} {rm : NSet}
    (hne : ∃ n ∈ rm, n ∈ mapKeys ins) :
    (removeNodesF ins outs rm).1.length < ins.length := by
  obtain ⟨n, hn, hkey⟩ := hne
  obtain ⟨q, hq, hqn⟩ :=
    List.mem_map.1 (show n ∈ ins.map (fun p => p.1) from hkey)
  show ((ins.filter (fun p => !decide (p.1 ∈ rm))).map
      (fun p => (p.1, p.2.filter (fun x => !decide (x ∈ rm))))).length < ins.length
  rw [List.length_map]
  apply List.length_filter_lt_length_iff_exists.mpr
  exact ⟨q, hq, by simp [hqn, hn]⟩

theorem removeNodes_edgeCount_le (ins outs : NMap) (rm : NSet) :
    edgeCount (removeNodesF ins outs rm).1 ≤ edgeCount ins := by
  show edgeCount ((ins.filter (fun p => !decide (p.1 ∈ rm))).map
      (fun p => (p.1, p.2.filter (fun x => !decide (x ∈ rm))))) ≤ edgeCount ins
  induction ins with
  | nil => exact Nat.le_refl _
  | cons p m ih =>
    by_cases hp : p.1 ∈ rm
    · rw [List.filter_cons_of_neg (by simp [hp]), edgeCount_cons]
      omega
    · rw [List.filter_cons_of_pos (by simp [hp]), List.map_cons, edgeCount_cons,
        edgeCount_cons]
      have h1 : ((p.1, p.2.filter (fun x => !decide (x ∈ rm))) : Nat × NSet).2.length
          ≤ p.2.length := List.length_filter_le _ _
      omega

end CT

namespace CT

/-! ### The candidate loop of the recursive search -/

theorem innerStep_inv {ins : NMap} {forced red : ESet} {st : Option Nat × List ESet}
    (hFI : FoldInv ins st)
    (hfn : forced.Nodup) (hfe : EdgesIn ins forced)
    (hrn : red.Nodup) (hre : EdgesIn ins red)
    (hdisj : ∀ e ∈ forced, e ∉ red) :
    FoldInv ins (innerStep forced st red) ∧
      (innerStep forced st red).1.isSome = true := by
  have hcombn : (forced ++ red).Nodup := by
    rw [List.nodup_append]
    exact ⟨hfn, hrn, hdisj⟩
  have hcombe : EdgesIn ins (forced ++ red) := by
    intro e he
    rcases List.mem_append.1 he with h | h
    · exact hfe e h
    · exact hre e h
  obtain ⟨m1, l1⟩ := st
  obtain ⟨hnone, hsome⟩ := hFI
  cases m1 with
  | none =>
    have heq : innerStep forced (none, l1) red
        = (some (forced ++ red).length, [forced ++ red]) := rfl
    rw [heq]
    refine ⟨⟨fun h => Option.noConfusion h, ?_⟩, rfl⟩
    intro mv hmv
    have hmv2 : (forced ++ red).length = mv := by
      have : some (forced ++ red).length = some mv := hmv
      injection this
    refine ⟨by simp, ?_, by simp⟩
    intro s hs
    rw [List.mem_singleton.1 hs]
    exact ⟨hmv2, hcombn, hcombe⟩
  | some mv =>
    have hl1 := hsome mv rfl
    have heq : innerStep forced (some mv, l1) red =
        (if (forced ++ red).length < mv
          then (some (forced ++ red).length, [forced ++ red])
         else if (forced ++ red).length = mv then
           (if l1.any (fun s => areSetsEqual s (forced ++ red)) then (some mv, l1)
            else (some mv, l1 ++ [forced ++ red]))
         else (some mv, l1)) := rfl
    rw [heq]
    by_cases hlt : (forced ++ red).length < mv
    · rw [if_pos hlt]
      refine ⟨⟨fun h => Option.noConfusion h, ?_⟩, rfl⟩
      intro mw hmw
      have hmw2 : (forced ++ red).length = mw := by
        have : some (forced ++ red).length = some mw := hmw
        injection this
      refine ⟨by simp, ?_, by simp⟩
      intro s hs
      rw [List.mem_singleton.1 hs]
      exact ⟨hmw2, hcombn, hcombe⟩
    · rw [if_neg hlt]
      by_cases heqm : (forced ++ red).length = mv
      · rw [if_pos heqm]
        by_cases hany : l1.any (fun s => areSetsEqual s (forced ++ red)) = true
        · rw [if_pos hany]
          refine ⟨⟨fun h => Option.noConfusion h, ?_⟩, rfl⟩
          intro mw hmw
          have hmw2 : mv = mw := Option.some.inj hmw
          rw [← hmw2]
          exact hl1
        · rw [if_neg hany]
          refine ⟨⟨fun h => Option.noConfusion h, ?_⟩, rfl⟩
          intro mw hmw
          have hmw2 : mv = mw := by
            have : some mv = some mw := hmw
            injection this
          subst hmw2
          obtain ⟨_, hprops, hpair⟩ := hl1
          refine ⟨by simp, ?_, ?_⟩
          · intro s hs
            rcases List.mem_append.1 hs with h | h
            · exact hprops s h
            · rw [List.mem_singleton.1 h]
              exact ⟨heqm, hcombn, hcombe⟩
          · rw [List.pairwise_append]
            refine ⟨hpair, by simp, ?_⟩
            intro a ha b hb
            rcases List.mem_singleton.1 hb with rfl
            show areSetsEqual a (forced ++ red) = false
            rw [Bool.eq_false_iff]
            intro hab
            apply hany
            rw [List.any_eq_true]
            exact ⟨a, ha, hab⟩
      · rw [if_neg heqm]
        refine ⟨⟨fun h => Option.noConfusion h, ?_⟩, rfl⟩
        intro mw hmw
        have hmw2 : mv = mw := Option.some.inj hmw
        rw [← hmw2]
        exact hl1

theorem innerFold_inv {ins : NMap} {forced : ESet}
    (hfn : forced.Nodup) (hfe : EdgesIn ins forced) :
    ∀ (results : List ESet) (st : Option Nat × List ESet),
      (∀ red ∈ results, red.Nodup ∧ EdgesIn ins red ∧ ∀ e ∈ forced, e ∉ red) →
      FoldInv ins st →
      FoldInv ins (results.foldl (innerStep forced) st) ∧
      (st.1.isSome = true → (results.foldl (innerStep forced) st).1.isSome = true) ∧
      (results ≠ [] → (results.foldl (innerStep forced) st).1.isSome = true) := by
  intro results
  induction results with
  | nil =>
    intro st _ hFI
    exact ⟨hFI, fun h => h, fun h => absurd rfl h⟩
  | cons red rest ih =>
    intro st hres hFI
    rw [List.foldl_cons]
    obtain ⟨hrn, hre, hrd⟩ := hres red (List.mem_cons_self _ _)
    obtain ⟨h1, h2⟩ := innerStep_inv hFI hfn hfe hrn hre hrd
    obtain ⟨ih1, ih2, _⟩ := ih (innerStep forced st red)
      (fun r hr => hres r (List.mem_cons_of_mem _ hr)) h1
    exact ⟨ih1, fun _ => ih2 h2, fun _ => ih2 h2⟩

theorem candStep_some (recur : NMap → NMap → Option (List ESet))
    (st : Option Nat × List ESet) (c : Cand) :
    candStep recur (some st) c =
      (if geMinB c.forced.length st.1 then some st
       else match recur c.rins c.routs with
         | none => none
         | some results => some (results.foldl (innerStep c.forced) st)) := rfl

theorem candFold_run (recur : NMap → NMap → Option (List ESet)) (ins : NMap) :
    ∀ (cands : List Cand) (st : Option Nat × List ESet),
      (∀ c ∈ cands, CandOK recur ins c) → FoldInv ins st →
      ∃ st2, cands.foldl (candStep recur) (some st) = some st2 ∧ FoldInv ins st2 ∧
        (st.1.isSome = true → st2.1.isSome = true) ∧
        (cands ≠ [] → st2.1.isSome = true) := by
  intro cands
  induction cands with
  | nil =>
    intro st _ hFI
    exact ⟨st, rfl, hFI, fun h => h, fun h => absurd rfl h⟩
  | cons c rest ih =>
    intro st hok hFI
    obtain ⟨hfnd, hfe, L, hL, hLne, hLprops⟩ := hok c (List.mem_cons_self _ _)
    rw [List.foldl_cons]
    by_cases hmin : geMinB c.forced.length st.1 = true
    · have hstep : candStep recur (some st) c = some st := by
        rw [candStep_some, if_pos hmin]
      rw [hstep]
      have hstsome : st.1.isSome = true := by
        cases hst : st.1 with
        | none => rw [hst] at hmin; cases hmin
        | some mv => rfl
      obtain ⟨st2, heq, hFI2, h3, _⟩ := ih st
        (fun d hd => hok d (List.mem_cons_of_mem _ hd)) hFI
      exact ⟨st2, heq, hFI2, fun _ => h3 hstsome, fun _ => h3 hstsome⟩
    · have hstep : candStep recur (some st) c
          = some (L.foldl (innerStep c.forced) st) := by
        rw [candStep_some, if_neg hmin, hL]
      rw [hstep]
      obtain ⟨hFI2, _, hsome2⟩ := innerFold_inv hfnd hfe L st hLprops hFI
      have hsm := hsome2 hLne
      obtain ⟨st2, heq, hFI3, h3, _⟩ := ih (L.foldl (innerStep c.forced) st)
        (fun d hd => hok d (List.mem_cons_of_mem _ hd)) hFI2
      exact ⟨st2, heq, hFI3, fun _ => h3 hsm, fun _ => h3 hsm⟩

end CT

namespace CT

/-! ### Main invariants of the recursive search -/

theorem cyclicRec_succ_eq (fuel : Nat) (ins outs : NMap) :
    cyclicRec (fuel+1) ins outs =
      (if (findNodesWithEmptySet ins).isEmpty then
        if (findNodesWithEmptySet outs).isEmpty then
          if (recreateEdgesFromIns ins).isEmpty then some [[]]
          else ((generate_reduced_ins_outs (recreateEdgesFromIns ins) ins outs).foldl
            (candStep (fun i o => cyclicRec fuel i o))
            (some ((none : Option Nat), ([] : List ESet)))).map (fun st => st.2)
        else cyclicRec fuel (removeNodesF ins outs (findNodesWithEmptySet outs)).1
          (removeNodesF ins outs (findNodesWithEmptySet outs)).2
      else
        if (removeNodesF ins outs (findNodesWithEmptySet ins)).1.isEmpty &&
            (removeNodesF ins outs (findNodesWithEmptySet ins)).2.isEmpty then some [[]]
        else cyclicRec fuel (removeNodesF ins outs (findNodesWithEmptySet ins)).1
          (removeNodesF ins outs (findNodesWithEmptySet ins)).2) := rfl

theorem singleton_nil_props (ins : NMap) :
    ([([] : ESet)] ≠ []) ∧
    (∀ s ∈ [([] : ESet)], s.Nodup ∧ EdgesIn ins s) ∧
    (∀ s ∈ [([] : ESet)], ∀ t ∈ [([] : ESet)], s.length = t.length) ∧
    ([([] : ESet)]).Pairwise (fun s t => areSetsEqual s t = false) := by
  refine ⟨by simp, ?_, ?_, by simp⟩
  · intro s hs
    rw [List.mem_singleton.1 hs]
    exact ⟨List.nodup_nil, fun e he => absurd he (List.not_mem_nil e)⟩
  · intro s hs t ht
    rw [List.mem_singleton.1 hs, List.mem_singleton.1 ht]

theorem cyclicRec_main :
    ∀ fuel ins outs, RecInv ins outs → cyclicFuel ins ≤ fuel →
      ∃ L, cyclicRec fuel ins outs = some L ∧ L ≠ [] ∧
        (∀ s ∈ L, s.Nodup ∧ EdgesIn ins s) ∧
        (∀ s ∈ L, ∀ t ∈ L, s.length = t.length) ∧
        L.Pairwise (fun s t => areSetsEqual s t = false) := by
  intro fuel
  induction fuel with
  | zero =>
    intro ins outs _ hf
    unfold cyclicFuel at hf
    omega
  | succ fuel ih =>
    intro ins outs inv hf
    rw [cyclicRec_succ_eq]
    by_cases hdep : (findNodesWithEmptySet ins).isEmpty = true
    · rw [if_pos hdep]
      by_cases hfol : (findNodesWithEmptySet outs).isEmpty = true
      · rw [if_pos hfol]
        by_cases hce : (recreateEdgesFromIns ins).isEmpty = true
        · rw [if_pos hce]
          obtain ⟨p1, p2, p3, p4⟩ := singleton_nil_props ins
          exact ⟨[[]], rfl, p1, p2, p3, p4⟩
        · rw [if_neg hce]
          have hkeys := inv.knIns
          have hcemem : ∀ e ∈ recreateEdgesFromIns ins, e.1 ∈ mapGetD ins e.2 :=
            fun e he => (mem_recreateEdges_getD hkeys).1 he
          have hcend : (recreateEdgesFromIns ins).Nodup := recreate_nodup hkeys inv.vnIns
          have hcene : recreateEdgesFromIns ins ≠ [] := by
            intro hnil
            rw [← List.isEmpty_iff] at hnil
            exact hce hnil
          have hcandsne : generate_reduced_ins_outs (recreateEdgesFromIns ins) ins outs ≠ [] :=
            generate_ne_nil hcene
          have hok : ∀ c ∈ generate_reduced_ins_outs (recreateEdgesFromIns ins) ins outs,
              CandOK (fun i o => cyclicRec fuel i o) ins c := by
            intro c hc
            obtain ⟨hr1, hr2, hfne, hfnd, hfpres⟩ :=
              generate_cand_props hkeys inv.vnIns hcemem hcend hc
            have hinv2 : RecInv c.rins c.routs := by
              rw [hr1, hr2]
              exact RecInv_removeEdgesPair inv c.forced
            have hfuel2 : cyclicFuel c.rins ≤ fuel := by
              unfold cyclicFuel at hf ⊢
              have hlen : c.rins.length = ins.length := by
                rw [hr1, removeEdgesPair_fst, length_removeEdges_fold]
              have hcnt : edgeCount c.rins < edgeCount ins := by
                rw [hr1, removeEdgesPair_fst]
                exact edgeCount_removeEdges_fold_lt hfne hfpres
              omega
            obtain ⟨L, hL, hLne, hLprops, _, _⟩ := ih c.rins c.routs hinv2 hfuel2
            refine ⟨hfnd, hfpres, L, hL, hLne, ?_⟩
            intro s hs
            obtain ⟨hsnd, hsin⟩ := hLprops s hs
            refine ⟨hsnd, ?_, ?_⟩
            · intro e he
              have hmem := hsin e he
              rw [hr1] at hmem
              exact (mem_getD_removeEdgesPair_fst.1 hmem).1
            · intro e hef hes
              have hmem := hsin e hes
              rw [hr1] at hmem
              have h2 := (mem_getD_removeEdgesPair_fst.1 hmem).2
              exact h2 hef
          obtain ⟨st2, hfold, hFI2, _, hsome2⟩ :=
            candFold_run (fun i o => cyclicRec fuel i o) ins
              (generate_reduced_ins_outs (recreateEdgesFromIns ins) ins outs)
              ((none : Option Nat), ([] : List ESet)) hok
              ⟨fun _ => rfl, fun mv hmv => Option.noConfusion hmv⟩
          have hs2 := hsome2 hcandsne
          obtain ⟨mv, hmv⟩ := Option.isSome_iff_exists.1 hs2
          obtain ⟨hne2, hprops2, hpair2⟩ := hFI2.2 mv hmv
          refine ⟨st2.2, ?_, hne2, ?_, ?_, hpair2⟩
          · rw [hfold]
            rfl
          · intro s hs
            exact ⟨(hprops2 s hs).2.1, (hprops2 s hs).2.2⟩
          · intro s hs t ht
            rw [(hprops2 s hs).1, (hprops2 t ht).1]
      · rw [if_neg hfol]
        have hfne : findNodesWithEmptySet outs ≠ [] := by
          intro hnil
          rw [← List.isEmpty_iff] at hnil
          exact hfol hnil
        obtain ⟨n, hn⟩ := List.exists_mem_of_ne_nil _ hfne
        have hkey : n ∈ mapKeys ins := (inv.sync n).2 (findNodes_sub_keys hn)
        have hinv2 := RecInv_removeNodesF inv (findNodesWithEmptySet outs)
        have hfuel2 : cyclicFuel (removeNodesF ins outs (findNodesWithEmptySet outs)).1
            ≤ fuel := by
          unfold cyclicFuel at hf ⊢
          have h1 := @removeNodes_length_lt ins outs (findNodesWithEmptySet outs)
            ⟨n, hn, hkey⟩
          have h2 := removeNodes_edgeCount_le ins outs (findNodesWithEmptySet outs)
          omega
        obtain ⟨L, hL, hLne, hLprops, hLlen, hLpair⟩ := ih _ _ hinv2 hfuel2
        refine ⟨L, hL, hLne, ?_, hLlen, hLpair⟩
        intro s hs
        obtain ⟨h1, h2⟩ := hLprops s hs
        refine ⟨h1, ?_⟩
        intro e he
        exact (mem_getD_removeNodesF_fst.1 (h2 e he)).1
    · rw [if_neg hdep]
      by_cases hboth : ((removeNodesF ins outs (findNodesWithEmptySet ins)).1.isEmpty &&
          (removeNodesF ins outs (findNodesWithEmptySet ins)).2.isEmpty) = true
      · rw [if_pos hboth]
        obtain ⟨p1, p2, p3, p4⟩ := singleton_nil_props ins
        exact ⟨[[]], rfl, p1, p2, p3, p4⟩
      · rw [if_neg hboth]
        have hdne : findNodesWithEmptySet ins ≠ [] := by
          intro hnil
          rw [← List.isEmpty_iff] at hnil
          exact hdep hnil
        obtain ⟨n, hn⟩ := List.exists_mem_of_ne_nil _ hdne
        have hkey : n ∈ mapKeys ins := findNodes_sub_keys hn
        have hinv2 := RecInv_removeNodesF inv (findNodesWithEmptySet ins)
        have hfuel2 : cyclicFuel (removeNodesF ins outs (findNodesWithEmptySet ins)).1
            ≤ fuel := by
          unfold cyclicFuel at hf ⊢
          have h1 := @removeNodes_length_lt ins outs (findNodesWithEmptySet ins)
            ⟨n, hn, hkey⟩
          have h2 := removeNodes_edgeCount_le ins outs (findNodesWithEmptySet ins)
          omega
        obtain ⟨L, hL, hLne, hLprops, hLlen, hLpair⟩ := ih _ _ hinv2 hfuel2
        refine ⟨L, hL, hLne, ?_, hLlen, hLpair⟩
        intro s hs
        obtain ⟨h1, h2⟩ := hLprops s hs
        refine ⟨h1, ?_⟩
        intro e he
        exact (mem_getD_removeNodesF_fst.1 (h2 e he)).1

end CT

namespace CT

/-! ### The recursive search on acyclic maps -/

theorem findNodes_nil_iff {m : NMap} :
    findNodesWithEmptySet m = [] ↔ ∀ p ∈ m, p.2 ≠ [] := by
  unfold findNodesWithEmptySet
  rw [List.map_eq_nil_iff, List.filter_eq_nil_iff]
  constructor
  · intro h p hp hnil
    exact h p hp (by simp [hnil])
  · intro h p hp hemp
    exact h p hp (List.isEmpty_iff.1 hemp)

theorem AcyInv_removeNodesF {ins : NMap} (outs : NMap) (rm : NSet) (h : AcyInv ins) :
    AcyInv (removeNodesF ins outs rm).1 := by
  constructor
  · intro u v hu
    obtain ⟨h1, h2, _⟩ := mem_getD_removeNodesF_fst.1 hu
    have hk := h.valKeys u v h1
    rw [show (removeNodesF ins outs rm).1 = (ins.filter (fun p => !decide (p.1 ∈ rm))).map
        (fun p => (p.1, p.2.filter (fun x => !decide (x ∈ rm)))) from rfl,
      mapKeys_removeNodes_part, List.mem_filter]
    exact ⟨hk, by simp [h2]⟩
  · intro v hv
    exact h.selfFree v (mem_getD_removeNodesF_fst.1 hv).1

theorem MapHasCycle_mono_getD {ins ins2 : NMap}
    (hk : (mapKeys ins).Nodup) (hk2 : (mapKeys ins2).Nodup)
    (hsub : ∀ u v, u ∈ mapGetD ins2 v → u ∈ mapGetD ins v) :
    MapHasCycle ins2 → MapHasCycle ins := by
  apply HasCycle_mono
  intro u v hrel
  obtain ⟨hm, hne⟩ := hrel
  have h1 : u ∈ mapGetD ins2 v := (mem_recreateEdges_getD hk2 (e := (u, v))).1 hm
  have h2 : u ∈ mapGetD ins v := hsub u v h1
  exact ⟨(mem_recreateEdges_getD hk (e := (u, v))).2 h2, hne⟩

theorem cyclicRec_acyclic :
    ∀ fuel ins outs, RecInv ins outs → AcyInv ins → ¬ MapHasCycle ins →
      cyclicFuel ins ≤ fuel → cyclicRec fuel ins outs = some [[]] := by
  intro fuel
  induction fuel with
  | zero =>
    intro ins outs _ _ _ hf
    unfold cyclicFuel at hf
    omega
  | succ fuel ih =>
    intro ins outs inv ainv hnc hf
    rw [cyclicRec_succ_eq]
    have hstep : ∀ rm : NSet, (∃ n ∈ rm, n ∈ mapKeys ins) →
        cyclicRec fuel (removeNodesF ins outs rm).1 (removeNodesF ins outs rm).2
          = some [[]] := by
      intro rm hex
      have hinv2 := RecInv_removeNodesF inv rm
      apply ih _ _ hinv2 (AcyInv_removeNodesF outs rm ainv)
      · intro hc
        apply hnc
        apply MapHasCycle_mono_getD inv.knIns hinv2.knIns ?_ hc
        intro u v hu
        exact (mem_getD_removeNodesF_fst.1 hu).1
      · unfold cyclicFuel at hf ⊢
        have h1 := @removeNodes_length_lt ins outs rm hex
        have h2 := removeNodes_edgeCount_le ins outs rm
        omega
    by_cases hdep : (findNodesWithEmptySet ins).isEmpty = true
    · rw [if_pos hdep]
      by_cases hfol : (findNodesWithEmptySet outs).isEmpty = true
      · rw [if_pos hfol]
        by_cases hce : (recreateEdgesFromIns ins).isEmpty = true
        · rw [if_pos hce]
        · exfalso
          have hcene : recreateEdgesFromIns ins ≠ [] := by
            intro hnil
            rw [← List.isEmpty_iff] at hnil
            exact hce hnil
          obtain ⟨e, he⟩ := List.exists_mem_of_ne_nil _ hcene
          have hkne : mapKeys ins ≠ [] := by
            obtain ⟨p, hp, _, _⟩ := mem_recreateEdges.1 he
            exact List.ne_nil_of_mem (List.mem_map.2 ⟨p, hp, rfl⟩)
          apply hnc
          apply cycle_of_mem_preds hkne
          intro v hv
          obtain ⟨p, hp, hp1⟩ := List.mem_map.1 hv
          have hpe : p.2 ≠ [] :=
            findNodes_nil_iff.1 (List.isEmpty_iff.1 hdep) p hp
          obtain ⟨u, hu⟩ := List.exists_mem_of_ne_nil _ hpe
          have hlook : mlookup v ins = some p.2 := by
            rw [← hp1]
            exact entry_mlookup inv.knIns (by simpa using hp)
          have hugd : u ∈ mapGetD ins v := by
            rw [mapGetD, hlook]
            exact hu
          refine ⟨u, ainv.valKeys u v hugd, ?_, ?_⟩
          · exact (mem_recreateEdges_getD inv.knIns (e := (u, v))).2 hugd
          · intro huv
            rw [huv] at hugd
            exact ainv.selfFree v hugd
      · rw [if_neg hfol]
        apply hstep
        have hfne : findNodesWithEmptySet outs ≠ [] := by
          intro hnil
          rw [← List.isEmpty_iff] at hnil
          exact hfol hnil
        obtain ⟨n, hn⟩ := List.exists_mem_of_ne_nil _ hfne
        exact ⟨n, hn, (inv.sync n).2 (findNodes_sub_keys hn)⟩
    · rw [if_neg hdep]
      by_cases hboth : ((removeNodesF ins outs (findNodesWithEmptySet ins)).1.isEmpty &&
          (removeNodesF ins outs (findNodesWithEmptySet ins)).2.isEmpty) = true
      · rw [if_pos hboth]
      · rw [if_neg hboth]
        apply hstep
        have hdne : findNodesWithEmptySet ins ≠ [] := by
          intro hnil
          rw [← List.isEmpty_iff] at hnil
          exact hdep hnil
        obtain ⟨n, hn⟩ := List.exists_mem_of_ne_nil _ hdne
        exact ⟨n, hn, findNodes_sub_keys hn⟩

end CT

namespace CT

/-! ### cyclicBuild characterisation -/

theorem cyclicBuildStep_allN (sn : Option Nat) (st : BuildSt) (e : Edge) :
    (cyclicBuildStep sn st e).allN = nsAdd (nsAdd st.allN e.1) e.2 := by
  unfold cyclicBuildStep
  by_cases hse : e.1 = e.2
  · rw [if_pos hse]
  · rw [if_neg hse]
    by_cases hsn : sn = some e.2
    · rw [if_pos hsn]
    · rw [if_neg hsn]

theorem cyclicBuildStep_forced (sn : Option Nat) (st : BuildSt) (e : Edge) :
    (cyclicBuildStep sn st e).forced =
      if e.1 ≠ e.2 ∧ sn = some e.2 then st.forced ++ [e] else st.forced := by
  unfold cyclicBuildStep
  by_cases hse : e.1 = e.2
  · rw [if_pos hse, if_neg (fun h => h.1 hse)]
  · rw [if_neg hse]
    by_cases hsn : sn = some e.2
    · rw [if_pos hsn, if_pos ⟨hse, hsn⟩]
    · rw [if_neg hsn, if_neg (fun h => hsn h.2)]

theorem cyclicBuildStep_getD_mem (sn : Option Nat) (st : BuildSt) (e : Edge) (u v : Nat) :
    u ∈ mapGetD (cyclicBuildStep sn st e).ins v ↔
      u ∈ mapGetD st.ins v ∨ (e.1 ≠ e.2 ∧ sn ≠ some e.2 ∧ v = e.2 ∧ u = e.1) := by
  unfold cyclicBuildStep
  by_cases hse : e.1 = e.2
  · rw [if_pos hse]
    simp [hse]
  · rw [if_neg hse]
    by_cases hsn : sn = some e.2
    · rw [if_pos hsn]
      show u ∈ mapGetD (mapEnsure (mapEnsure st.ins e.2) e.1) v ↔ _
      rw [mapGetD_ensure, mapGetD_ensure]
      simp [hsn]
    · rw [if_neg hsn]
      show u ∈ mapGetD (mapAdjust (mapEnsure (mapEnsure st.ins e.2) e.1) e.2
          (fun s => nsAdd s e.1)) v ↔ _
      by_cases hv : v = e.2
      · subst hv
        rw [mapGetD_adjust_of_mem _ (mem_mapKeys_ensure.2 (Or.inl
            (mem_mapKeys_ensure.2 (Or.inr rfl)))), mapGetD_ensure, mapGetD_ensure,
          nsAdd_mem]
        constructor
        · rintro (h | h)
          · exact Or.inl h
          · exact Or.inr ⟨hse, hsn, rfl, h⟩
        · rintro (h | ⟨_, _, _, h⟩)
          · exact Or.inl h
          · exact Or.inr h
      · have h1 : mapGetD (mapAdjust (mapEnsure (mapEnsure st.ins e.2) e.1) e.2
            (fun s => nsAdd s e.1)) v
            = mapGetD (mapEnsure (mapEnsure st.ins e.2) e.1) v := by
          unfold mapGetD
          rw [mlookup_adjust_ne _ _ hv]
        rw [h1, mapGetD_ensure, mapGetD_ensure]
        simp [hv]

theorem foldl_cyclicBuild_getD (sn : Option Nat) (edges : List Edge) :
    ∀ (st : BuildSt) (u v : Nat),
      u ∈ mapGetD (edges.foldl (cyclicBuildStep sn) st).ins v ↔
        u ∈ mapGetD st.ins v ∨ ((u, v) ∈ edges ∧ u ≠ v ∧ sn ≠ some v) := by
  induction edges with
  | nil => intro st u v; simp
  | cons e es ih =>
    intro st u v
    rw [List.foldl_cons, ih, cyclicBuildStep_getD_mem]
    constructor
    · rintro ((h | ⟨hne, hsn, rfl, rfl⟩) | ⟨h, hne, hsn⟩)
      · exact Or.inl h
      · exact Or.inr ⟨List.mem_cons_self _ _, fun hh => hne hh, hsn⟩
      · exact Or.inr ⟨List.mem_cons_of_mem _ h, hne, hsn⟩
    · rintro (h | ⟨h, hne, hsn⟩)
      · exact Or.inl (Or.inl h)
      · rcases List.mem_cons.1 h with hh | hh
        · refine Or.inl (Or.inr ?_)
          have h1 : u = e.1 := by rw [← hh]
          have h2 : v = e.2 := by rw [← hh]
          rw [← h1, ← h2]
          exact ⟨hne, by rw [← h2] at *; exact hsn, rfl, rfl⟩
        · exact Or.inr ⟨hh, hne, hsn⟩

theorem foldl_cyclicBuild_allN (sn : Option Nat) (edges : List Edge) :
    ∀ (st : BuildSt) (n : Nat),
      n ∈ (edges.foldl (cyclicBuildStep sn) st).allN ↔ n ∈ st.allN ∨ Mentioned edges n := by
  induction edges with
  | nil => intro st n; simp [Mentioned]
  | cons e es ih =>
    intro st n
    rw [List.foldl_cons, ih]
    rw [show (cyclicBuildStep sn st e).allN = nsAdd (nsAdd st.allN e.1) e.2 from
      cyclicBuildStep_allN sn st e]
    rw [nsAdd_mem, nsAdd_mem]
    unfold Mentioned
    constructor
    · rintro (((h | h) | h) | ⟨f, hf, hor⟩)
      · exact Or.inl h
      · exact Or.inr ⟨e, List.mem_cons_self _ _, Or.inl h.symm⟩
      · exact Or.inr ⟨e, List.mem_cons_self _ _, Or.inr h.symm⟩
      · exact Or.inr ⟨f, List.mem_cons_of_mem _ hf, hor⟩
    · rintro (h | ⟨f, hf, hor⟩)
      · exact Or.inl (Or.inl (Or.inl h))
      · rcases List.mem_cons.1 hf with hh | hh
        · subst hh
          rcases hor with h1 | h1
          · exact Or.inl (Or.inl (Or.inr h1.symm))
          · exact Or.inl (Or.inr h1.symm)
        · exact Or.inr ⟨f, hh, hor⟩

theorem foldl_cyclicBuild_allN_nodup (sn : Option Nat) (edges : List Edge) :
    ∀ st : BuildSt, st.allN.Nodup → (edges.foldl (cyclicBuildStep sn) st).allN.Nodup := by
  induction edges with
  | nil => intro st h; exact h
  | cons e es ih =>
    intro st h
    rw [List.foldl_cons]
    apply ih
    rw [cyclicBuildStep_allN]
    exact nsAdd_nodup (nsAdd_nodup h _) _

theorem foldl_cyclicBuild_forced (sn : Option Nat) (edges : List Edge) :
    ∀ st : BuildSt, (edges.foldl (cyclicBuildStep sn) st).forced =
      st.forced ++ edges.filter (fun e => !decide (e.1 = e.2) && decide (sn = some e.2)) := by
  induction edges with
  | nil => intro st; simp
  | cons e es ih =>
    intro st
    rw [List.foldl_cons, ih, cyclicBuildStep_forced]
    by_cases hcond : e.1 ≠ e.2 ∧ sn = some e.2
    · rw [if_pos hcond, List.filter_cons_of_pos (by simp [hcond.1, hcond.2])]
      simp
    · rw [if_neg hcond]
      have : ¬ ((!decide (e.1 = e.2) && decide (sn = some e.2)) = true) := by
        intro hb
        rw [Bool.and_eq_true] at hb
        apply hcond
        constructor
        · simpa using hb.1
        · simpa using hb.2
      have hfil : (e :: es).filter (fun e => !decide (e.1 = e.2) && decide (sn = some e.2))
          = es.filter (fun e => !decide (e.1 = e.2) && decide (sn = some e.2)) :=
        List.filter_cons_of_neg this
      rw [hfil]

theorem mem_keys_foldl_ensure (ns : NSet) :
    ∀ (m : NMap) (k : Nat), k ∈ mapKeys (ns.foldl mapEnsure m) ↔ k ∈ mapKeys m ∨ k ∈ ns := by
  induction ns with
  | nil => intro m k; simp
  | cons n ns ih =>
    intro m k
    rw [List.foldl_cons, ih, mem_mapKeys_ensure]
    constructor
    · rintro ((h | h) | h)
      · exact Or.inl h
      · exact Or.inr (by rw [h]; exact List.mem_cons_self _ _)
      · exact Or.inr (List.mem_cons_of_mem _ h)
    · rintro (h | h)
      · exact Or.inl (Or.inl h)
      · rcases List.mem_cons.1 h with rfl | hh
        · exact Or.inl (Or.inr rfl)
        · exact Or.inr hh

theorem keys_foldl_ensure_nodup (ns : NSet) :
    ∀ m : NMap, (mapKeys m).Nodup → (mapKeys (ns.foldl mapEnsure m)).Nodup := by
  induction ns with
  | nil => intro m h; exact h
  | cons n ns ih =>
    intro m h
    rw [List.foldl_cons]
    exact ih _ (mapKeys_ensure_nodup h n)

end CT

namespace CT

/-! ### cyclicBuild: assembled facts -/

theorem cyclicBuild_none_eq (edges : List Edge) :
    cyclicBuild edges none = buildPhase2 edges none := rfl

theorem cyclicBuild_some_eq (edges : List Edge) (s : Nat) :
    cyclicBuild edges (some s) =
      (if s ∈ (buildPhase2 edges (some s)).allN then buildPhase2 edges (some s)
       else ⟨mapEnsure (buildPhase2 edges (some s)).ins s,
             mapEnsure (buildPhase2 edges (some s)).outs s,
             (buildPhase2 edges (some s)).forced,
             (buildPhase2 edges (some s)).allN ++ [s]⟩) := rfl

theorem buildPhase2_getD (edges : List Edge) (sn : Option Nat) (v : Nat) :
    mapGetD (buildPhase2 edges sn).ins v = mapGetD (buildFold edges sn).ins v :=
  foldl_ensure_getD _ _ v

theorem cyclicBuild_ins_getD (edges : List Edge) (sn : Option Nat) (v : Nat) :
    mapGetD (cyclicBuild edges sn).ins v = mapGetD (buildFold edges sn).ins v := by
  cases sn with
  | none =>
    rw [cyclicBuild_none_eq]
    exact buildPhase2_getD edges none v
  | some s =>
    rw [cyclicBuild_some_eq]
    by_cases hmem : s ∈ (buildPhase2 edges (some s)).allN
    · rw [if_pos hmem]
      exact buildPhase2_getD edges (some s) v
    · rw [if_neg hmem]
      show mapGetD (mapEnsure (buildPhase2 edges (some s)).ins s) v = _
      rw [mapGetD_ensure]
      exact buildPhase2_getD edges (some s) v

theorem cyclicBuild_getD_mem (edges : List Edge) (sn : Option Nat) (u v : Nat) :
    u ∈ mapGetD (cyclicBuild edges sn).ins v ↔
      ((u, v) ∈ edges ∧ u ≠ v ∧ sn ≠ some v) := by
  rw [cyclicBuild_ins_getD]
  unfold buildFold
  rw [foldl_cyclicBuild_getD]
  simp [mapGetD, mlookup]

theorem cyclicBuild_forced (edges : List Edge) (sn : Option Nat) :
    (cyclicBuild edges sn).forced =
      edges.filter (fun e => !decide (e.1 = e.2) && decide (sn = some e.2)) := by
  have hfold : (buildFold edges sn).forced =
      edges.filter (fun e => !decide (e.1 = e.2) && decide (sn = some e.2)) := by
    unfold buildFold
    rw [foldl_cyclicBuild_forced]
    rfl
  cases sn with
  | none =>
    rw [cyclicBuild_none_eq]
    exact hfold
  | some s =>
    rw [cyclicBuild_some_eq]
    by_cases hmem : s ∈ (buildPhase2 edges (some s)).allN
    · rw [if_pos hmem]
      exact hfold
    · rw [if_neg hmem]
      exact hfold

theorem cyclicBuild_allN_mem (edges : List Edge) (sn : Option Nat) (n : Nat) :
    n ∈ (cyclicBuild edges sn).allN ↔ Mentioned edges n ∨ sn = some n := by
  have hfold : ∀ m, m ∈ (buildFold edges sn).allN ↔ Mentioned edges m := by
    intro m
    unfold buildFold
    rw [foldl_cyclicBuild_allN]
    simp
  cases sn with
  | none =>
    rw [cyclicBuild_none_eq]
    show n ∈ (buildFold edges none).allN ↔ _
    rw [hfold]
    simp
  | some s =>
    rw [cyclicBuild_some_eq]
    by_cases hmem : s ∈ (buildPhase2 edges (some s)).allN
    · rw [if_pos hmem]
      show n ∈ (buildFold edges (some s)).allN ↔ _
      rw [hfold]
      constructor
      · exact Or.inl
      · rintro (h | h)
        · exact h
        · have hs : n = s := by
            injection h with hh
            exact hh.symm
          rw [hs]
          exact (hfold s).1 hmem
    · rw [if_neg hmem]
      show n ∈ (buildFold edges (some s)).allN ++ [s] ↔ _
      rw [List.mem_append, hfold]
      constructor
      · rintro (h | h)
        · exact Or.inl h
        · right
          rw [List.mem_singleton.1 h]
      · rintro (h | h)
        · exact Or.inl h
        · right
          rw [List.mem_singleton]
          injection h.symm

end CT

namespace CT

/-! ### cyclicBuild: key sets and duplicate-freeness -/

theorem cyclicBuildStep_keys_ins (sn : Option Nat) (st : BuildSt) (e : Edge) (n : Nat) :
    n ∈ mapKeys (cyclicBuildStep sn st e).ins ↔
      n ∈ mapKeys st.ins ∨ (e.1 ≠ e.2 ∧ (n = e.2 ∨ n = e.1)) := by
  unfold cyclicBuildStep
  by_cases hse : e.1 = e.2
  · rw [if_pos hse]
    simp [hse]
  · rw [if_neg hse]
    by_cases hsn : sn = some e.2
    · rw [if_pos hsn]
      show n ∈ mapKeys (mapEnsure (mapEnsure st.ins e.2) e.1) ↔ _
      rw [mem_mapKeys_ensure, mem_mapKeys_ensure]
      tauto
    · rw [if_neg hsn]
      show n ∈ mapKeys (mapAdjust (mapEnsure (mapEnsure st.ins e.2) e.1) e.2
          (fun s => nsAdd s e.1)) ↔ _
      rw [mapKeys_adjust, mem_mapKeys_ensure, mem_mapKeys_ensure]
      tauto

theorem cyclicBuildStep_keys_outs (sn : Option Nat) (st : BuildSt) (e : Edge) (n : Nat) :
    n ∈ mapKeys (cyclicBuildStep sn st e).outs ↔
      n ∈ mapKeys st.outs ∨ (e.1 ≠ e.2 ∧ (n = e.1 ∨ n = e.2)) := by
  unfold cyclicBuildStep
  by_cases hse : e.1 = e.2
  · rw [if_pos hse]
    simp [hse]
  · rw [if_neg hse]
    by_cases hsn : sn = some e.2
    · rw [if_pos hsn]
      show n ∈ mapKeys (mapEnsure (mapEnsure st.outs e.1) e.2) ↔ _
      rw [mem_mapKeys_ensure, mem_mapKeys_ensure]
      tauto
    · rw [if_neg hsn]
      show n ∈ mapKeys (mapAdjust (mapEnsure (mapEnsure st.outs e.1) e.2) e.1
          (fun s => nsAdd s e.2)) ↔ _
      rw [mapKeys_adjust, mem_mapKeys_ensure, mem_mapKeys_ensure]
      tauto

theorem cyclicBuildStep_keys_ins_nodup (sn : Option Nat) (st : BuildSt) (e : Edge)
    (h : (mapKeys st.ins).Nodup) : (mapKeys (cyclicBuildStep sn st e).ins).Nodup := by
  unfold cyclicBuildStep
  by_cases hse : e.1 = e.2
  · rw [if_pos hse]
    exact h
  · rw [if_neg hse]
    by_cases hsn : sn = some e.2
    · rw [if_pos hsn]
      exact mapKeys_ensure_nodup (mapKeys_ensure_nodup h _) _
    · rw [if_neg hsn]
      show (mapKeys (mapAdjust (mapEnsure (mapEnsure st.ins e.2) e.1) e.2
          (fun s => nsAdd s e.1))).Nodup
      rw [mapKeys_adjust]
      exact mapKeys_ensure_nodup (mapKeys_ensure_nodup h _) _

theorem cyclicBuildStep_keys_outs_nodup (sn : Option Nat) (st : BuildSt) (e : Edge)
    (h : (mapKeys st.outs).Nodup) : (mapKeys (cyclicBuildStep sn st e).outs).Nodup := by
  unfold cyclicBuildStep
  by_cases hse : e.1 = e.2
  · rw [if_pos hse]
    exact h
  · rw [if_neg hse]
    by_cases hsn : sn = some e.2
    · rw [if_pos hsn]
      exact mapKeys_ensure_nodup (mapKeys_ensure_nodup h _) _
    · rw [if_neg hsn]
      show (mapKeys (mapAdjust (mapEnsure (mapEnsure st.outs e.1) e.2) e.1
          (fun s => nsAdd s e.2))).Nodup
      rw [mapKeys_adjust]
      exact mapKeys_ensure_nodup (mapKeys_ensure_nodup h _) _

theorem vn_ensure {m : NMap} {k : Nat} (h : ∀ p ∈ m, p.2.Nodup) :
    ∀ p ∈ mapEnsure m k, p.2.Nodup := by
  intro p hp
  unfold mapEnsure at hp
  split at hp
  · exact h p hp
  · rcases List.mem_append.1 hp with h2 | h2
    · exact h p h2
    · rw [List.mem_singleton.1 h2]
      exact List.nodup_nil

theorem vn_adjust_of {m : NMap} {k : Nat} {f : NSet → NSet}
    (h : ∀ p ∈ m, p.2.Nodup) (hf : ∀ s : NSet, s.Nodup → (f s).Nodup) :
    ∀ p ∈ mapAdjust m k f, p.2.Nodup := by
  intro p hp
  rw [mapAdjust, List.mem_map] at hp
  obtain ⟨q, hq, heq⟩ := hp
  by_cases hqk : q.1 = k
  · rw [if_pos hqk] at heq
    rw [← heq]
    exact hf q.2 (h q hq)
  · rw [if_neg hqk] at heq
    rw [← heq]
    exact h q hq

theorem cyclicBuildStep_vn (sn : Option Nat) (st : BuildSt) (e : Edge)
    (h : ∀ p ∈ st.ins, p.2.Nodup) : ∀ p ∈ (cyclicBuildStep sn st e).ins, p.2.Nodup := by
  unfold cyclicBuildStep
  by_cases hse : e.1 = e.2
  · rw [if_pos hse]
    exact h
  · rw [if_neg hse]
    by_cases hsn : sn = some e.2
    · rw [if_pos hsn]
      exact vn_ensure (vn_ensure h)
    · rw [if_neg hsn]
      show ∀ p ∈ mapAdjust (mapEnsure (mapEnsure st.ins e.2) e.1) e.2
          (fun s => nsAdd s e.1), p.2.Nodup
      exact vn_adjust_of (vn_ensure (vn_ensure h)) (fun s hs => nsAdd_nodup hs _)

theorem foldl_cyclicBuild_keys_ins_nodup (sn : Option Nat) (edges : List Edge) :
    ∀ st : BuildSt, (mapKeys st.ins).Nodup →
      (mapKeys (edges.foldl (cyclicBuildStep sn) st).ins).Nodup := by
  induction edges with
  | nil => intro st h; exact h
  | cons e es ih =>
    intro st h
    rw [List.foldl_cons]
    exact ih _ (cyclicBuildStep_keys_ins_nodup sn st e h)

theorem foldl_cyclicBuild_keys_outs_nodup (sn : Option Nat) (edges : List Edge) :
    ∀ st : BuildSt, (mapKeys st.outs).Nodup →
      (mapKeys (edges.foldl (cyclicBuildStep sn) st).outs).Nodup := by
  induction edges with
  | nil => intro st h; exact h
  | cons e es ih =>
    intro st h
    rw [List.foldl_cons]
    exact ih _ (cyclicBuildStep_keys_outs_nodup sn st e h)

theorem foldl_cyclicBuild_vn (sn : Option Nat) (edges : List Edge) :
    ∀ st : BuildSt, (∀ p ∈ st.ins, p.2.Nodup) →
      ∀ p ∈ (edges.foldl (cyclicBuildStep sn) st).ins, p.2.Nodup := by
  induction edges with
  | nil => intro st h; exact h
  | cons e es ih =>
    intro st h
    rw [List.foldl_cons]
    exact ih _ (cyclicBuildStep_vn sn st e h)

theorem foldl_cyclicBuild_keys_sub_ins (sn : Option Nat) (edges : List Edge) :
    ∀ st : BuildSt, (∀ n ∈ mapKeys st.ins, n ∈ st.allN) →
      ∀ n ∈ mapKeys (edges.foldl (cyclicBuildStep sn) st).ins,
        n ∈ (edges.foldl (cyclicBuildStep sn) st).allN := by
  induction edges with
  | nil => intro st h; exact h
  | cons e es ih =>
    intro st h
    rw [List.foldl_cons]
    apply ih
    intro n hn
    rw [cyclicBuildStep_keys_ins] at hn
    rw [cyclicBuildStep_allN, nsAdd_mem, nsAdd_mem]
    rcases hn with h1 | ⟨_, (h1 | h1)⟩
    · exact Or.inl (Or.inl (h n h1))
    · exact Or.inr h1
    · exact Or.inl (Or.inr h1)

theorem foldl_cyclicBuild_keys_sub_outs (sn : Option Nat) (edges : List Edge) :
    ∀ st : BuildSt, (∀ n ∈ mapKeys st.outs, n ∈ st.allN) →
      ∀ n ∈ mapKeys (edges.foldl (cyclicBuildStep sn) st).outs,
        n ∈ (edges.foldl (cyclicBuildStep sn) st).allN := by
  induction edges with
  | nil => intro st h; exact h
  | cons e es ih =>
    intro st h
    rw [List.foldl_cons]
    apply ih
    intro n hn
    rw [cyclicBuildStep_keys_outs] at hn
    rw [cyclicBuildStep_allN, nsAdd_mem, nsAdd_mem]
    rcases hn with h1 | ⟨_, (h1 | h1)⟩
    · exact Or.inl (Or.inl (h n h1))
    · exact Or.inl (Or.inr h1)
    · exact Or.inr h1

theorem foldl_ensure_vn (ns : NSet) :
    ∀ m : NMap, (∀ p ∈ m, p.2.Nodup) → ∀ p ∈ ns.foldl mapEnsure m, p.2.Nodup := by
  induction ns with
  | nil => intro m h; exact h
  | cons n ns ih =>
    intro m h
    rw [List.foldl_cons]
    exact ih _ (vn_ensure h)

end CT

namespace CT

/-! ### cyclicBuild: RecInv and AcyInv -/

theorem buildPhase2_keys_ins (edges : List Edge) (sn : Option Nat) (n : Nat) :
    n ∈ mapKeys (buildPhase2 edges sn).ins ↔ n ∈ (buildPhase2 edges sn).allN := by
  show n ∈ mapKeys ((buildFold edges sn).allN.foldl mapEnsure (buildFold edges sn).ins)
      ↔ n ∈ (buildFold edges sn).allN
  rw [mem_keys_foldl_ensure]
  constructor
  · rintro (h | h)
    · exact foldl_cyclicBuild_keys_sub_ins sn edges _ (by intro x hx; cases hx) n h
    · exact h
  · exact Or.inr

theorem buildPhase2_keys_outs (edges : List Edge) (sn : Option Nat) (n : Nat) :
    n ∈ mapKeys (buildPhase2 edges sn).outs ↔ n ∈ (buildPhase2 edges sn).allN := by
  show n ∈ mapKeys ((buildFold edges sn).allN.foldl mapEnsure (buildFold edges sn).outs)
      ↔ n ∈ (buildFold edges sn).allN
  rw [mem_keys_foldl_ensure]
  constructor
  · rintro (h | h)
    · exact foldl_cyclicBuild_keys_sub_outs sn edges _ (by intro x hx; cases hx) n h
    · exact h
  · exact Or.inr

theorem cyclicBuild_keys_ins (edges : List Edge) (sn : Option Nat) (n : Nat) :
    n ∈ mapKeys (cyclicBuild edges sn).ins ↔ n ∈ (cyclicBuild edges sn).allN := by
  cases sn with
  | none =>
    rw [cyclicBuild_none_eq]
    exact buildPhase2_keys_ins edges none n
  | some s =>
    rw [cyclicBuild_some_eq]
    by_cases hmem : s ∈ (buildPhase2 edges (some s)).allN
    · rw [if_pos hmem]
      exact buildPhase2_keys_ins edges (some s) n
    · rw [if_neg hmem]
      show n ∈ mapKeys (mapEnsure (buildPhase2 edges (some s)).ins s) ↔
        n ∈ (buildPhase2 edges (some s)).allN ++ [s]
      rw [mem_mapKeys_ensure, List.mem_append, buildPhase2_keys_ins]
      simp

theorem cyclicBuild_keys_outs (edges : List Edge) (sn : Option Nat) (n : Nat) :
    n ∈ mapKeys (cyclicBuild edges sn).outs ↔ n ∈ (cyclicBuild edges sn).allN := by
  cases sn with
  | none =>
    rw [cyclicBuild_none_eq]
    exact buildPhase2_keys_outs edges none n
  | some s =>
    rw [cyclicBuild_some_eq]
    by_cases hmem : s ∈ (buildPhase2 edges (some s)).allN
    · rw [if_pos hmem]
      exact buildPhase2_keys_outs edges (some s) n
    · rw [if_neg hmem]
      show n ∈ mapKeys (mapEnsure (buildPhase2 edges (some s)).outs s) ↔
        n ∈ (buildPhase2 edges (some s)).allN ++ [s]
      rw [mem_mapKeys_ensure, List.mem_append, buildPhase2_keys_outs]
      simp

theorem cyclicBuild_RecInv (edges : List Edge) (sn : Option Nat) :
    RecInv (cyclicBuild edges sn).ins (cyclicBuild edges sn).outs := by
  have hknI : (mapKeys (buildPhase2 edges sn).ins).Nodup := by
    show (mapKeys ((buildFold edges sn).allN.foldl mapEnsure (buildFold edges sn).ins)).Nodup
    exact keys_foldl_ensure_nodup _ _
      (foldl_cyclicBuild_keys_ins_nodup sn edges _ List.nodup_nil)
  have hknO : (mapKeys (buildPhase2 edges sn).outs).Nodup := by
    show (mapKeys ((buildFold edges sn).allN.foldl mapEnsure (buildFold edges sn).outs)).Nodup
    exact keys_foldl_ensure_nodup _ _
      (foldl_cyclicBuild_keys_outs_nodup sn edges _ List.nodup_nil)
  have hvn : ∀ p ∈ (buildPhase2 edges sn).ins, p.2.Nodup := by
    show ∀ p ∈ (buildFold edges sn).allN.foldl mapEnsure (buildFold edges sn).ins, p.2.Nodup
    exact foldl_ensure_vn _ _ (foldl_cyclicBuild_vn sn edges _ (by intro p hp; cases hp))
  constructor
  · cases sn with
    | none =>
      rw [cyclicBuild_none_eq]
      exact hknI
    | some s =>
      rw [cyclicBuild_some_eq]
      by_cases hmem : s ∈ (buildPhase2 edges (some s)).allN
      · rw [if_pos hmem]
        exact hknI
      · rw [if_neg hmem]
        show (mapKeys (mapEnsure (buildPhase2 edges (some s)).ins s)).Nodup
        exact mapKeys_ensure_nodup hknI s
  · cases sn with
    | none =>
      rw [cyclicBuild_none_eq]
      exact hknO
    | some s =>
      rw [cyclicBuild_some_eq]
      by_cases hmem : s ∈ (buildPhase2 edges (some s)).allN
      · rw [if_pos hmem]
        exact hknO
      · rw [if_neg hmem]
        show (mapKeys (mapEnsure (buildPhase2 edges (some s)).outs s)).Nodup
        exact mapKeys_ensure_nodup hknO s
  · intro n
    rw [cyclicBuild_keys_ins, cyclicBuild_keys_outs]
  · cases sn with
    | none =>
      rw [cyclicBuild_none_eq]
      exact hvn
    | some s =>
      rw [cyclicBuild_some_eq]
      by_cases hmem : s ∈ (buildPhase2 edges (some s)).allN
      · rw [if_pos hmem]
        exact hvn
      · rw [if_neg hmem]
        show ∀ p ∈ mapEnsure (buildPhase2 edges (some s)).ins s, p.2.Nodup
        exact vn_ensure hvn

theorem cyclicBuild_AcyInv (edges : List Edge) (sn : Option Nat) :
    AcyInv (cyclicBuild edges sn).ins := by
  constructor
  · intro u v hu
    obtain ⟨hm, _, _⟩ := (cyclicBuild_getD_mem edges sn u v).1 hu
    rw [cyclicBuild_keys_ins, cyclicBuild_allN_mem]
    exact Or.inl ⟨(u, v), hm, Or.inl rfl⟩
  · intro v hv
    exact ((cyclicBuild_getD_mem edges sn v v).1 hv).2.1 rfl

end CT

namespace CT

/-! ### Orchestrator: totality, survivors, selection -/

theorem recResultsOf_spec (edges : List Edge) (sn : Option Nat) :
    ∃ L, recResultsOf edges sn = some L ∧ L ≠ [] ∧
      (∀ s ∈ L, s.Nodup ∧ EdgesIn (cyclicBuild edges sn).ins s) ∧
      (∀ s ∈ L, ∀ t ∈ L, s.length = t.length) ∧
      L.Pairwise (fun s t => areSetsEqual s t = false) := by
  show ∃ L, cyclicRec (cyclicFuel (cyclicBuild edges sn).ins) (cyclicBuild edges sn).ins
      (cyclicBuild edges sn).outs = some L ∧ _
  exact cyclicRec_main _ _ _ (cyclicBuild_RecInv edges sn) (Nat.le_refl _)

theorem mkSurvivor_match_eq (edges : List Edge) (forced cs : ESet) :
    mkSurvivor edges forced cs =
      (match acyclic_toposort (subtractEdges edges (cs ++ forced)) with
       | Except.ok t => some (t, cs ++ forced)
       | Except.error _ => (none : Option (Topology × ESet))) := rfl

theorem mkSurvivor_eq_some {edges : List Edge} {forced cs : ESet} {r : Topology × ESet}
    (h : mkSurvivor edges forced cs = some r) :
    r.2 = cs ++ forced ∧
      acyclic_toposort (subtractEdges edges (cs ++ forced)) = Except.ok r.1 := by
  rw [mkSurvivor_match_eq] at h
  cases hres : acyclic_toposort (subtractEdges edges (cs ++ forced)) with
  | ok t =>
    rw [hres] at h
    have hr : (t, cs ++ forced) = r := Option.some.inj h
    rw [← hr]
    exact ⟨rfl, rfl⟩
  | error msg =>
    rw [hres] at h
    cases h

theorem mkSurvivor_eq_none {edges : List Edge} {forced cs : ESet} :
    mkSurvivor edges forced cs = none ↔
      ∃ msg, acyclic_toposort (subtractEdges edges (cs ++ forced)) = Except.error msg := by
  rw [mkSurvivor_match_eq]
  cases hres : acyclic_toposort (subtractEdges edges (cs ++ forced)) with
  | ok t =>
    constructor
    · intro h
      cases h
    · rintro ⟨msg, hmsg⟩
      cases hmsg
  | error msg =>
    constructor
    · intro _
      exact ⟨msg, rfl⟩
    · intro _
      rfl

theorem mkSurvivor_ok {edges : List Edge} {forced cs : ESet} {t : Topology}
    (h : acyclic_toposort (subtractEdges edges (cs ++ forced)) = Except.ok t) :
    mkSurvivor edges forced cs = some (t, cs ++ forced) := by
  rw [mkSurvivor_match_eq, h]

theorem cyclic_toposort_eq (edges : List Edge) (sn : Option Nat) :
    cyclic_toposort edges sn =
      (match recResultsOf edges sn with
       | none => Except.error fuelMsg
       | some L =>
         match L.filterMap (mkSurvivor edges (cyclicBuild edges sn).forced) with
         | [] => Except.error noValidMsg
         | r0 :: rest =>
           Except.ok (selectResult (cyclicBuild edges sn).ins (r0 :: rest) r0)) := rfl

theorem survivorsOf_eq {edges : List Edge} {sn : Option Nat} {L : List ESet}
    (h : recResultsOf edges sn = some L) :
    survivorsOf edges sn
      = L.filterMap (mkSurvivor edges (cyclicBuild edges sn).forced) := by
  unfold survivorsOf recResults
  rw [h]
  rfl

theorem selectStep_none (ins : NMap) (cur r : Topology × ESet) :
    selectStep ins (cur, none) r = (r, some (scoreOf ins r.2)) := rfl

theorem selectStep_some (ins : NMap) (cur : Topology × ESet) (bs : Nat)
    (r : Topology × ESet) :
    selectStep ins (cur, some bs) r =
      (if bs < scoreOf ins r.2 then (r, some (scoreOf ins r.2)) else (cur, some bs)) := rfl

theorem selectFold_spec (ins : NMap) :
    ∀ (l : List (Topology × ESet)) (cur : Topology × ESet),
      ∃ l1 l2,
        (l.foldl (selectStep ins) (cur, some (scoreOf ins cur.2))).2
          = some (scoreOf ins (l.foldl (selectStep ins) (cur, some (scoreOf ins cur.2))).1.2) ∧
        cur :: l = l1 ++ (l.foldl (selectStep ins) (cur, some (scoreOf ins cur.2))).1 :: l2 ∧
        (∀ x ∈ l1, scoreOf ins x.2 <
          scoreOf ins (l.foldl (selectStep ins) (cur, some (scoreOf ins cur.2))).1.2) ∧
        (∀ x ∈ l2, scoreOf ins x.2 ≤
          scoreOf ins (l.foldl (selectStep ins) (cur, some (scoreOf ins cur.2))).1.2) := by
  intro l
  induction l with
  | nil =>
    intro cur
    exact ⟨[], [], rfl, rfl, by simp, by simp⟩
  | cons x l ih =>
    intro cur
    rw [List.foldl_cons, selectStep_some]
    by_cases hlt : scoreOf ins cur.2 < scoreOf ins x.2
    · rw [if_pos hlt]
      obtain ⟨l1, l2, hsnd, hdec, hl1, hl2⟩ := ih x
      have hxle : scoreOf ins x.2 ≤
          scoreOf ins (l.foldl (selectStep ins) (x, some (scoreOf ins x.2))).1.2 := by
        cases l1 with
        | nil =>
          have hx : x = (l.foldl (selectStep ins) (x, some (scoreOf ins x.2))).1 := by
            have h2 := hdec
            rw [List.nil_append] at h2
            exact (List.cons_eq_cons.mp h2).1
          rw [← hx]
        | cons a t =>
          have h2 := hdec
          rw [List.cons_append] at h2
          have hax : x = a := (List.cons_eq_cons.mp h2).1
          have := hl1 a (List.mem_cons_self _ _)
          rw [← hax] at this
          exact Nat.le_of_lt this
      refine ⟨cur :: l1, l2, hsnd, ?_, ?_, hl2⟩
      · rw [List.cons_append, ← hdec]
      · intro y hy
        rcases List.mem_cons.1 hy with rfl | hy2
        · exact Nat.lt_of_lt_of_le hlt hxle
        · exact hl1 y hy2
    · rw [if_neg hlt]
      obtain ⟨l1, l2, hsnd, hdec, hl1, hl2⟩ := ih cur
      have hxle : scoreOf ins x.2 ≤ scoreOf ins cur.2 := Nat.le_of_not_lt hlt
      cases l1 with
      | nil =>
        have h2 := hdec
        rw [List.nil_append] at h2
        have hcur : cur = (l.foldl (selectStep ins) (cur, some (scoreOf ins cur.2))).1 :=
          (List.cons_eq_cons.mp h2).1
        have hl2eq : l = l2 := (List.cons_eq_cons.mp h2).2
        refine ⟨[], x :: l2, hsnd, ?_, by simp, ?_⟩
        · rw [List.nil_append, ← hcur, ← hl2eq]
        · intro y hy
          rcases List.mem_cons.1 hy with rfl | hy2
          · rw [← hcur]
            exact hxle
          · exact hl2 y hy2
      | cons a t =>
        have h2 := hdec
        rw [List.cons_append] at h2
        have hca : cur = a := (List.cons_eq_cons.mp h2).1
        have hlt2 : l = t ++ (l.foldl (selectStep ins) (cur, some (scoreOf ins cur.2))).1 :: l2 :=
          (List.cons_eq_cons.mp h2).2
        refine ⟨cur :: x :: t, l2, hsnd, ?_, ?_, hl2⟩
        · rw [List.cons_append, List.cons_append, ← hlt2]
        · intro y hy
          have hcurlt : scoreOf ins cur.2 <
              scoreOf ins (l.foldl (selectStep ins) (cur, some (scoreOf ins cur.2))).1.2 := by
            have := hl1 a (List.mem_cons_self _ _)
            rw [← hca] at this
            exact this
          rcases List.mem_cons.1 hy with rfl | hy2
          · exact hcurlt
          · rcases List.mem_cons.1 hy2 with rfl | hy3
            · exact Nat.lt_of_le_of_lt hxle hcurlt
            · have : y ∈ a :: t := List.mem_cons_of_mem _ hy3
              exact hl1 y this

theorem selectResult_spec (ins : NMap) (r0 : Topology × ESet)
    (rest : List (Topology × ESet)) :
    ∃ l1 l2,
      r0 :: rest = l1 ++ (selectResult ins (r0 :: rest) r0) :: l2 ∧
      (∀ x ∈ l1, scoreOf ins x.2 < scoreOf ins (selectResult ins (r0 :: rest) r0).2) ∧
      (∀ x ∈ l2, scoreOf ins x.2 ≤ scoreOf ins (selectResult ins (r0 :: rest) r0).2) := by
  unfold selectResult
  rw [List.foldl_cons, selectStep_none]
  obtain ⟨l1, l2, _, hdec, hl1, hl2⟩ := selectFold_spec ins rest r0
  exact ⟨l1, l2, hdec, hl1, hl2⟩

theorem selectResult_mem (ins : NMap) (r0 : Topology × ESet)
    (rest : List (Topology × ESet)) :
    selectResult ins (r0 :: rest) r0 ∈ r0 :: rest := by
  obtain ⟨l1, l2, hdec, _, _⟩ := selectResult_spec ins r0 rest
  have hmem : selectResult ins (r0 :: rest) r0 ∈
      l1 ++ (selectResult ins (r0 :: rest) r0) :: l2 :=
    List.mem_append.2 (Or.inr (List.mem_cons_self _ _))
  rw [← hdec] at hmem
  exact hmem

end CT

namespace CT

/-! ### Support: subtraction, score arithmetic, survivor shape, selection -/

theorem subtractEdges_nil (edges : List Edge) : subtractEdges edges [] = edges := by
  unfold subtractEdges
  rw [List.filter_eq_self]
  intro a _
  rfl

theorem mapGetD_nodup {m : NMap} (h : ∀ p ∈ m, p.2.Nodup) (v : Nat) :
    (mapGetD m v).Nodup := by
  unfold mapGetD
  cases hl : mlookup v m with
  | none => exact List.nodup_nil
  | some s => exact h (v, s) (mlookup_entry hl)

theorem length_eq_of_mem_iff {a b : List Nat} (ha : a.Nodup) (hb : b.Nodup)
    (h : ∀ u, u ∈ a ↔ u ∈ b) : a.length = b.length :=
  Nat.le_antisymm
    (List.subperm_of_subset ha (fun u hu => (h u).1 hu)).length_le
    (List.subperm_of_subset hb (fun u hu => (h u).2 hu)).length_le

theorem build_ins_len_eq {edges : List Edge} {sn : Option Nat} {v : Nat}
    (h : sn ≠ some v) :
    (mapGetD (cyclicBuild edges sn).ins v).length
      = (mapGetD (fullIns edges) v).length := by
  apply length_eq_of_mem_iff
  · exact mapGetD_nodup (cyclicBuild_RecInv edges sn).vnIns v
  · exact mapGetD_nodup (cyclicBuild_RecInv edges none).vnIns v
  · intro u
    rw [cyclicBuild_getD_mem]
    show _ ↔ u ∈ mapGetD (cyclicBuild edges none).ins v
    rw [cyclicBuild_getD_mem]
    constructor
    · rintro ⟨h1, h2, _⟩
      exact ⟨h1, h2, fun hc => Option.noConfusion hc⟩
    · rintro ⟨h1, h2, _⟩
      exact ⟨h1, h2, h⟩

theorem scoreOf_eq_sum (ins : NMap) (cyc : ESet) :
    scoreOf ins cyc = (cyc.map (fun e => (mapGetD ins e.2).length)).sum := by
  have hgen : ∀ (l : ESet) (a : Nat),
      l.foldl (fun acc e => acc + (mapGetD ins e.2).length) a
        = a + (l.map (fun e => (mapGetD ins e.2).length)).sum := by
    intro l
    induction l with
    | nil => intro a; simp
    | cons x xs ih =>
      intro a
      rw [List.foldl_cons, ih]
      rw [List.map_cons, List.sum_cons]
      omega
  have h0 := hgen cyc 0
  unfold scoreOf
  rw [h0]
  omega

theorem scoreOf_append (ins : NMap) (a b : ESet) :
    scoreOf ins (a ++ b) = scoreOf ins a + scoreOf ins b := by
  rw [scoreOf_eq_sum, scoreOf_eq_sum, scoreOf_eq_sum, List.map_append, List.sum_append]

theorem scoreOf_eq_fullScore {edges : List Edge} {sn : Option Nat} {cs : ESet}
    (h : EdgesIn (cyclicBuild edges sn).ins cs) :
    scoreOf (cyclicBuild edges sn).ins cs = fullScore edges cs := by
  unfold fullScore
  rw [scoreOf_eq_sum, scoreOf_eq_sum]
  congr 1
  apply List.map_congr_left
  intro e he
  have hsn : sn ≠ some e.2 :=
    ((cyclicBuild_getD_mem edges sn e.1 e.2).1 (h e he)).2.2
  exact build_ins_len_eq hsn

theorem recResults_eq {edges : List Edge} {sn : Option Nat} {L : List ESet}
    (h : recResultsOf edges sn = some L) : recResults edges sn = L := by
  unfold recResults
  rw [h]
  rfl

theorem mem_survivorsOf {edges : List Edge} {sn : Option Nat} {r : Topology × ESet} :
    r ∈ survivorsOf edges sn ↔
      ∃ cs ∈ recResults edges sn,
        mkSurvivor edges (cyclicBuild edges sn).forced cs = some r := by
  unfold survivorsOf
  exact List.mem_filterMap

theorem cyclic_ok_select {edges : List Edge} {sn : Option Nat} {r : Topology × ESet}
    (h : cyclic_toposort edges sn = Except.ok r) :
    ∃ l1 l2, survivorsOf edges sn = l1 ++ r :: l2 ∧
      (∀ x ∈ l1, scoreOf (cyclicBuild edges sn).ins x.2
        < scoreOf (cyclicBuild edges sn).ins r.2) ∧
      (∀ x ∈ l2, scoreOf (cyclicBuild edges sn).ins x.2
        ≤ scoreOf (cyclicBuild edges sn).ins r.2) := by
  obtain ⟨L, hL, _⟩ := recResultsOf_spec edges sn
  have hsurv := survivorsOf_eq hL
  have heq := cyclic_toposort_eq edges sn
  rw [h, hL] at heq
  have heq2 : Except.ok r =
      (match L.filterMap (mkSurvivor edges (cyclicBuild edges sn).forced) with
       | [] => (Except.error noValidMsg : Except String (Topology × ESet))
       | r0 :: rest =>
         Except.ok (selectResult (cyclicBuild edges sn).ins (r0 :: rest) r0)) := heq
  cases hfm : L.filterMap (mkSurvivor edges (cyclicBuild edges sn).forced) with
  | nil =>
    rw [hfm] at heq2
    cases heq2
  | cons r0 rest =>
    rw [hfm] at heq2
    have hr : r = selectResult (cyclicBuild edges sn).ins (r0 :: rest) r0 :=
      Except.ok.inj heq2
    obtain ⟨l1, l2, hdec, hl1, hl2⟩ :=
      selectResult_spec (cyclicBuild edges sn).ins r0 rest
    refine ⟨l1, l2, ?_, ?_, ?_⟩
    · rw [hsurv, hfm, hdec, ← hr]
    · intro x hx
      rw [hr]
      exact hl1 x hx
    · intro x hx
      rw [hr]
      exact hl2 x hx

theorem cyclic_ok_mem {edges : List Edge} {sn : Option Nat} {r : Topology × ESet}
    (h : cyclic_toposort edges sn = Except.ok r) : r ∈ survivorsOf edges sn := by
  obtain ⟨l1, l2, hdec, _, _⟩ := cyclic_ok_select h
  rw [hdec]
  exact List.mem_append.2 (Or.inr (List.mem_cons_self _ _))

theorem survivor_shape {edges : List Edge} {sn : Option Nat} {r : Topology × ESet}
    (hr : r ∈ survivorsOf edges sn) :
    ∃ cs ∈ recResults edges sn, r.2 = cs ++ (cyclicBuild edges sn).forced ∧
      acyclic_toposort (subtractEdges edges r.2) = Except.ok r.1 := by
  obtain ⟨cs, hcs, hmk⟩ := mem_survivorsOf.1 hr
  obtain ⟨h2, hok⟩ := mkSurvivor_eq_some hmk
  refine ⟨cs, hcs, h2, ?_⟩
  rw [h2]
  exact hok

theorem EdgesIn_recResults {edges : List Edge} {sn : Option Nat} {cs : ESet}
    (h : cs ∈ recResults edges sn) :
    EdgesIn (cyclicBuild edges sn).ins cs := by
  obtain ⟨L, hL, _, hprops, _, _⟩ := recResultsOf_spec edges sn
  rw [recResults_eq hL] at h
  exact (hprops cs h).2

theorem survivor_score_shift {edges : List Edge} {sn : Option Nat}
    {r : Topology × ESet} (hr : r ∈ survivorsOf edges sn) :
    scoreOf (cyclicBuild edges sn).ins r.2
        + fullScore edges (cyclicBuild edges sn).forced
      = fullScore edges r.2
        + scoreOf (cyclicBuild edges sn).ins (cyclicBuild edges sn).forced := by
  obtain ⟨cs, hcs, h2, _⟩ := survivor_shape hr
  have hEI := EdgesIn_recResults hcs
  have hcseq := scoreOf_eq_fullScore hEI
  have hfull : fullScore edges (cs ++ (cyclicBuild edges sn).forced)
      = fullScore edges cs + fullScore edges (cyclicBuild edges sn).forced := by
    unfold fullScore
    rw [scoreOf_append]
  rw [h2, scoreOf_append, hcseq, hfull]
  omega

theorem score_transfer {edges : List Edge} {sn : Option Nat} {x r : Topology × ESet}
    (hx : x ∈ survivorsOf edges sn) (hr : r ∈ survivorsOf edges sn) :
    (scoreOf (cyclicBuild edges sn).ins x.2 ≤ scoreOf (cyclicBuild edges sn).ins r.2
      ↔ fullScore edges x.2 ≤ fullScore edges r.2) ∧
    (scoreOf (cyclicBuild edges sn).ins x.2 < scoreOf (cyclicBuild edges sn).ins r.2
      ↔ fullScore edges x.2 < fullScore edges r.2) := by
  have h1 := survivor_score_shift hx
  have h2 := survivor_score_shift hr
  omega

end CT

namespace CT

/-! ### Support: the acyclic reduction of the cyclic entry point -/

theorem forced_none_nil (edges : List Edge) : (cyclicBuild edges none).forced = [] := by
  rw [cyclicBuild_forced]
  rw [List.filter_eq_nil_iff]
  intro e _
  simp

theorem build_noCycle {edges : List Edge} {sn : Option Nat} (h : ¬ HasCycle edges) :
    ¬ MapHasCycle (cyclicBuild edges sn).ins := by
  intro hc
  apply h
  apply HasCycle_mono ?_ hc
  intro u v hrel
  obtain ⟨hm, hne⟩ := hrel
  have hgd : u ∈ mapGetD (cyclicBuild edges sn).ins v :=
    (mem_recreateEdges_getD (cyclicBuild_RecInv edges sn).knIns (e := (u, v))).1 hm
  exact ⟨((cyclicBuild_getD_mem edges sn u v).1 hgd).1, hne⟩

theorem selectResult_single (ins : NMap) (r : Topology × ESet) :
    selectResult ins [r] r = r := rfl

theorem cyclic_none_of_noCycle {edges : List Edge} (h : ¬ HasCycle edges) :
    ∃ t, acyclic_toposort edges = Except.ok t ∧
      cyclic_toposort edges none = Except.ok (t, []) := by
  obtain ⟨t, ht⟩ := acyclic_ok_of_noCycle h
  refine ⟨t, ht, ?_⟩
  have hrec : cyclicRec (cyclicFuel (cyclicBuild edges none).ins)
      (cyclicBuild edges none).ins (cyclicBuild edges none).outs = some [[]] :=
    cyclicRec_acyclic _ _ _ (cyclicBuild_RecInv edges none)
      (cyclicBuild_AcyInv edges none) (build_noCycle h) (Nat.le_refl _)
  have hro : recResultsOf edges none = some [[]] := hrec
  have hmk : mkSurvivor edges (cyclicBuild edges none).forced [] = some (t, []) := by
    rw [forced_none_nil]
    have hok : acyclic_toposort (subtractEdges edges (([] : ESet) ++ ([] : ESet)))
        = Except.ok t := by
      show acyclic_toposort (subtractEdges edges []) = Except.ok t
      rw [subtractEdges_nil]
      exact ht
    have := mkSurvivor_ok hok
    exact this
  have hfm : ([([] : ESet)]).filterMap (mkSurvivor edges (cyclicBuild edges none).forced)
      = [(t, [])] := by
    rw [List.filterMap_cons, hmk]
    rfl
  have heq := cyclic_toposort_eq edges none
  rw [hro] at heq
  have heq2 : cyclic_toposort edges none =
      (match ([([] : ESet)]).filterMap (mkSurvivor edges (cyclicBuild edges none).forced) with
       | [] => (Except.error noValidMsg : Except String (Topology × ESet))
       | r0 :: rest =>
         Except.ok (selectResult (cyclicBuild edges none).ins (r0 :: rest) r0)) := heq
  rw [hfm] at heq2
  rw [heq2]
  rfl

end CT

namespace CT

/-! ### Support: sizes of generator candidates increase, levels order nodes -/

theorem pairwise_le_flatMap {α : Type} (g : α → Nat) :
    ∀ (l : List Nat) (f : Nat → List α), l.Pairwise (fun a b => a < b) →
      (∀ n ∈ l, ∀ c ∈ f n, g c = n) →
      ((l.flatMap f).map g).Pairwise (fun a b => a ≤ b) := by
  intro l
  induction l with
  | nil =>
    intro f _ _
    exact List.Pairwise.nil
  | cons x xs ih =>
    intro f hl hf
    rw [List.flatMap_cons, List.map_append, List.pairwise_append]
    refine ⟨?_,
      ih f (List.pairwise_cons.1 hl).2 (fun n hn => hf n (List.mem_cons_of_mem _ hn)),
      ?_⟩
    · apply List.pairwise_of_forall_mem_list
      intro a ha b hb
      obtain ⟨c, hc, rfl⟩ := List.mem_map.1 ha
      obtain ⟨d, hd, rfl⟩ := List.mem_map.1 hb
      rw [hf x (List.mem_cons_self _ _) c hc, hf x (List.mem_cons_self _ _) d hd]
    · intro a ha b hb
      obtain ⟨c, hc, rfl⟩ := List.mem_map.1 ha
      rw [List.map_flatMap, List.mem_flatMap] at hb
      obtain ⟨m, hm, hbm⟩ := hb
      obtain ⟨d, hd, rfl⟩ := List.mem_map.1 hbm
      rw [hf x (List.mem_cons_self _ _) c hc, hf m (List.mem_cons_of_mem _ hm) d hd]
      exact Nat.le_of_lt ((List.pairwise_cons.1 hl).1 m hm)

theorem nodeBlock_sizes (ins outs : NMap) (node : Nat) (inc : NSet) :
    ((nodeBlock ins outs node inc).map (fun c => c.forced.length)).Pairwise
      (fun a b => a ≤ b) := by
  unfold nodeBlock
  apply pairwise_le_flatMap
  · exact List.pairwise_lt_range' 1 inc.length
  · intro n hn c hc
    rw [List.mem_map] at hc
    obtain ⟨subset, hsub, rfl⟩ := hc
    show (subset.map (fun s => (s, node))).length = n
    rw [List.length_map]
    exact (mem_combinations.1 hsub).1

theorem fallbackBlock_sizes (edges : ESet) (ins outs : NMap) :
    ((fallbackBlock edges ins outs).map (fun c => c.forced.length)).Pairwise
      (fun a b => a ≤ b) := by
  unfold fallbackBlock
  apply pairwise_le_flatMap
  · exact List.pairwise_lt_range' 1 edges.length
  · intro n hn c hc
    rw [List.mem_map] at hc
    obtain ⟨ses, hses, rfl⟩ := hc
    show ses.length = n
    exact (mem_combinations.1 hses).1

theorem fallbackBlock_nil (ins outs : NMap) : fallbackBlock [] ins outs = [] := rfl

theorem acyclic_lvl_lt {edges : List Edge} {topo : Topology}
    (h : acyclic_toposort edges = Except.ok topo) {u v : Nat}
    (hm : (u, v) ∈ edges) (hne : u ≠ v) : lvlIdx topo u < lvlIdx topo v := by
  obtain ⟨hcount, _, hord⟩ := acyclic_ok_props h
  obtain ⟨i, j, hij, hi, hj, hu, hv⟩ := hord u v hm hne
  rw [lvlIdx_eq hi (hcount u ⟨(u, v), hm, Or.inl rfl⟩) hu,
    lvlIdx_eq hj (hcount v ⟨(u, v), hm, Or.inr rfl⟩) hv]
  exact hij

end CT

namespace CT

/-! ### The claims -/

/-- C1: whenever `cyclic_toposort` (with or without a start node) returns
normally, subtracting the returned cyclic-edge-set from the input edges (by
value equality of the source/target pair) yields a collection on which
`acyclic_toposort` succeeds, and the returned `Topology` is exactly that
layering of the remainder. -/
theorem C1_subtract_layers (edges : List Edge) (sn : Option Nat) (t : Topology)
    (cyc : ESet) (h : cyclic_toposort edges sn = Except.ok (t, cyc)) :
    acyclic_toposort (subtractEdges edges cyc) = Except.ok t := by
  obtain ⟨cs, _, _, hok⟩ := survivor_shape (cyclic_ok_mem h)
  exact hok

theorem C1_subtract_layers_witness :
    acyclic_toposort (subtractEdges [(1, 2)] []) = Except.ok [[1], [2]] :=
  C1_subtract_layers [(1, 2)] none [[1], [2]] [] rfl

/-- C2: on an input that is acyclic once self-loops are discarded,
`acyclic_toposort` succeeds with a layering in which every node mentioned by
any input edge (self-loop endpoints included) occurs in exactly one level,
only mentioned nodes occur, and the level index of the source of every
retained non-self-loop edge is strictly smaller than that of its target. -/
theorem C2_layering (edges : List Edge) (h : ¬ HasCycle edges) :
    ∃ topo, acyclic_toposort edges = Except.ok topo ∧
      (∀ n, Mentioned edges n → topo.countP (fun l => decide (n ∈ l)) = 1) ∧
      (∀ l ∈ topo, ∀ n ∈ l, Mentioned edges n) ∧
      (∀ u v, (u, v) ∈ edges → u ≠ v → lvlIdx topo u < lvlIdx topo v) := by
  obtain ⟨topo, ht⟩ := acyclic_ok_of_noCycle h
  obtain ⟨h1, h2, _⟩ := acyclic_ok_props ht
  exact ⟨topo, ht, h1, h2, fun u v hm hne => acyclic_lvl_lt ht hm hne⟩

theorem C2_layering_witness :
    ∃ topo, acyclic_toposort [(1, 2)] = Except.ok topo ∧
      (∀ n, Mentioned [(1, 2)] n → topo.countP (fun l => decide (n ∈ l)) = 1) ∧
      (∀ l ∈ topo, ∀ n ∈ l, Mentioned [(1, 2)] n) ∧
      (∀ u v, (u, v) ∈ [(1, 2)] → u ≠ v → lvlIdx topo u < lvlIdx topo v) :=
  C2_layering [(1, 2)]
    (noCycle_of_acyclic_ok
      (show acyclic_toposort [(1, 2)] = Except.ok [[1], [2]] from rfl))

/-- C3: `acyclic_toposort` fails exactly on inputs whose non-self-loop edges
contain a directed cycle, and the error is always the cyclic-graph message. -/
theorem C3_error_iff_cycle (edges : List Edge) :
    (acyclic_toposort edges = Except.error cyclicGraphMsg ↔ HasCycle edges) ∧
    (∀ msg, acyclic_toposort edges = Except.error msg → msg = cyclicGraphMsg) := by
  constructor
  · constructor
    · intro h
      exact (acyclic_err_cycle h).2
    · intro hc
      rcases acyclic_toposort_cases edges with ⟨topo, ht⟩ | herr
      · exact absurd hc (noCycle_of_acyclic_ok ht)
      · exact herr
  · intro msg h
    exact (acyclic_err_cycle h).1

/-- C4: the returned result is a surviving candidate whose cyclic-edge-set
maximises the summed indegree of its edge targets measured against the
original full incoming map (built with no start node, before any removal),
and every survivor generated before it scores strictly less, so ties keep
the first candidate in generation order. -/
theorem C4_best_score (edges : List Edge) (sn : Option Nat) (r : Topology × ESet)
    (h : cyclic_toposort edges sn = Except.ok r) :
    r ∈ survivorsOf edges sn ∧
    (∀ x ∈ survivorsOf edges sn, fullScore edges x.2 ≤ fullScore edges r.2) ∧
    ∃ l1 l2, survivorsOf edges sn = l1 ++ r :: l2 ∧
      ∀ x ∈ l1, fullScore edges x.2 < fullScore edges r.2 := by
  obtain ⟨l1, l2, hdec, hl1, hl2⟩ := cyclic_ok_select h
  have hrmem : r ∈ survivorsOf edges sn := by
    rw [hdec]
    exact List.mem_append.2 (Or.inr (List.mem_cons_self _ _))
  refine ⟨hrmem, ?_, l1, l2, hdec, ?_⟩
  · intro x hx
    have hxs := hx
    rw [hdec] at hxs
    rcases List.mem_append.1 hxs with hx1 | hx2
    · exact Nat.le_of_lt (((score_transfer hx hrmem).2).1 (hl1 x hx1))
    · rcases List.mem_cons.1 hx2 with rfl | hx3
      · exact Nat.le_refl _
      · exact ((score_transfer hx hrmem).1).1 (hl2 x hx3)
  · intro x hx1
    have hxmem : x ∈ survivorsOf edges sn := by
      rw [hdec]
      exact List.mem_append.2 (Or.inl hx1)
    exact ((score_transfer hxmem hrmem).2).1 (hl1 x hx1)

theorem C4_best_score_witness :
    ([[2], [3], [1]], [(1, 2)]) ∈ survivorsOf [(1, 2), (2, 3), (3, 1)] none ∧
    (∀ x ∈ survivorsOf [(1, 2), (2, 3), (3, 1)] none,
      fullScore [(1, 2), (2, 3), (3, 1)] x.2
        ≤ fullScore [(1, 2), (2, 3), (3, 1)] ([[2], [3], [1]], [(1, 2)]).2) ∧
    ∃ l1 l2, survivorsOf [(1, 2), (2, 3), (3, 1)] none
        = l1 ++ ([[2], [3], [1]], [(1, 2)]) :: l2 ∧
      ∀ x ∈ l1, fullScore [(1, 2), (2, 3), (3, 1)] x.2
        < fullScore [(1, 2), (2, 3), (3, 1)] ([[2], [3], [1]], [(1, 2)]).2 :=
  C4_best_score [(1, 2), (2, 3), (3, 1)] none ([[2], [3], [1]], [(1, 2)]) rfl

/-- C5 (amended): when `cyclic_toposort` is called without a start node and
returns normally, the returned cyclic-edge-set is empty exactly when the
input, ignoring self-loops, is already acyclic.  The original claim, which
asserted this for any optional start node, is refuted by
`C5_start_node_counterexample`. -/
theorem C5_empty_iff_acyclic (edges : List Edge) (t : Topology) (cyc : ESet)
    (h : cyclic_toposort edges none = Except.ok (t, cyc)) :
    cyc = [] ↔ ¬ HasCycle edges := by
  constructor
  · intro hnil
    obtain ⟨cs, _, _, hok⟩ := survivor_shape (cyclic_ok_mem h)
    have hok2 : acyclic_toposort (subtractEdges edges cyc) = Except.ok t := hok
    rw [hnil, subtractEdges_nil] at hok2
    exact noCycle_of_acyclic_ok hok2
  · intro hnc
    obtain ⟨t2, _, hok2⟩ := cyclic_none_of_noCycle hnc
    rw [h] at hok2
    exact congrArg Prod.snd (Except.ok.inj hok2)

theorem C5_empty_iff_acyclic_witness :
    (([] : ESet) = [] ↔ ¬ HasCycle [(1, 2)]) :=
  C5_empty_iff_acyclic [(1, 2)] [[1], [2]] [] rfl

/-- C5 counterexample: on the acyclic input [(1,2)] with start node 2 the
call returns normally with the non-empty cyclic-edge-set [(1,2)], so with a
start node the returned cyclic-edge-set can be non-empty although the input
is acyclic. -/
theorem C5_start_node_counterexample :
    cyclic_toposort [(1, 2)] (some 2) = Except.ok ([], [(1, 2)]) ∧
      ¬ HasCycle [(1, 2)] :=
  ⟨rfl, noCycle_of_acyclic_ok
    (show acyclic_toposort [(1, 2)] = Except.ok [[1], [2]] from rfl)⟩

/-- C6: with a start node, every non-self-loop input edge whose target is the
start node ends up in the returned cyclic-edge-set and is absent from the
incoming adjacency map handed to the cycle-breaking search; in particular on
{(1,2),(2,3),(3,1)} with start node 2 the call returns exactly the
cyclic-edge-set {(1,2)}. -/
theorem C6_forced_start_edges (edges : List Edge) (s : Nat) (t : Topology)
    (cyc : ESet) (e : Edge) (h : cyclic_toposort edges (some s) = Except.ok (t, cyc))
    (he : e ∈ edges) (hne : e.1 ≠ e.2) (hts : e.2 = s) :
    (e ∈ cyc ∧ e.1 ∉ mapGetD (cyclicBuild edges (some s)).ins e.2) ∧
    cyclic_toposort [(1, 2), (2, 3), (3, 1)] (some 2)
      = Except.ok ([[2], [3], [1]], [(1, 2)]) := by
  refine ⟨⟨?_, ?_⟩, rfl⟩
  · obtain ⟨cs, _, hshape, _⟩ := survivor_shape (cyclic_ok_mem h)
    have hshape2 : cyc = cs ++ (cyclicBuild edges (some s)).forced := hshape
    have hf : e ∈ (cyclicBuild edges (some s)).forced := by
      rw [cyclicBuild_forced, List.mem_filter]
      refine ⟨he, ?_⟩
      have h1 : (decide (e.1 = e.2)) = false := by simp [hne]
      have h2 : (decide ((some s : Option Nat) = some e.2)) = true := by simp [hts]
      rw [h1, h2]
      rfl
    rw [hshape2]
    exact List.mem_append.2 (Or.inr hf)
  · intro hmem
    apply ((cyclicBuild_getD_mem edges (some s) e.1 e.2).1 hmem).2.2
    rw [hts]

theorem C6_forced_start_edges_witness :
    (((1, 2) : Edge) ∈ [((1, 2) : Edge)] ∧
      (1 : Nat) ∉ mapGetD (cyclicBuild [(1, 2), (2, 3), (3, 1)] (some 2)).ins 2) ∧
    cyclic_toposort [(1, 2), (2, 3), (3, 1)] (some 2)
      = Except.ok ([[2], [3], [1]], [(1, 2)]) :=
  C6_forced_start_edges [(1, 2), (2, 3), (3, 1)] 2 [[2], [3], [1]] [(1, 2)] (1, 2)
    rfl (by decide) (by decide) rfl

/-- C7: on any pair of adjacency maps satisfying the mirrored-map invariant,
the recursive cycle-breaking search (run with the fuel the orchestrator
passes) returns a non-empty list of cyclic-edge-sets of equal cardinality in
which no two elements are content-equal, and it returns exactly [empty set]
when the map stores no cycle, i.e. when peeling can empty the graph. -/
theorem C7_search_contract (ins outs : NMap) (h : AdjInvP ins outs) :
    ∃ L, cyclicRec (cyclicFuel ins) ins outs = some L ∧ L ≠ [] ∧
      (∀ s ∈ L, ∀ u ∈ L, s.length = u.length) ∧
      L.Pairwise (fun s u => areSetsEqual s u = false) ∧
      (¬ MapHasCycle ins → L = [[]]) := by
  have hrec : RecInv ins outs := ⟨h.knIns, h.knOuts, h.sync, h.vnIns⟩
  obtain ⟨L, hL, hne, _, hlen, hpair⟩ :=
    cyclicRec_main (cyclicFuel ins) ins outs hrec (Nat.le_refl _)
  refine ⟨L, hL, hne, hlen, hpair, ?_⟩
  intro hnc
  have h2 := cyclicRec_acyclic (cyclicFuel ins) ins outs hrec
    ⟨fun u v hu => (h.valKeys u v hu).1, h.selfFree⟩ hnc (Nat.le_refl _)
  rw [hL] at h2
  exact Option.some.inj h2

theorem C7_search_contract_witness :
    ∃ L, cyclicRec (cyclicFuel []) [] [] = some L ∧ L ≠ [] ∧
      (∀ s ∈ L, ∀ u ∈ L, s.length = u.length) ∧
      L.Pairwise (fun s u => areSetsEqual s u = false) ∧
      (¬ MapHasCycle [] → L = [[]]) :=
  C7_search_contract [] []
    ⟨List.nodup_nil, List.nodup_nil, fun n => Iff.rfl,
     fun p hp => absurd hp (List.not_mem_nil p),
     fun p hp => absurd hp (List.not_mem_nil p),
     fun u v => ⟨fun hu => absurd hu (List.not_mem_nil u),
       fun hv => absurd hv (List.not_mem_nil v)⟩,
     fun u v hu => absurd hu (List.not_mem_nil u),
     fun v => List.not_mem_nil v⟩

/-- C8: the candidate enumerator uses the per-node blocks (non-empty subsets
of the predecessor set of each node with at least two predecessors, smallest
size first, each removing exactly the chosen (predecessor, node) edges from
copies of both maps) whenever such a node exists, and falls back to
non-empty subsets of the whole remaining edge set, smallest size first,
exactly when no node has two or more incoming edges; the fallback yields
nothing on an empty edge set. -/
theorem C8_generator (edges : ESet) (ins outs : NMap) (node : Nat) (inc : NSet) :
    ((∃ p ∈ ins, 2 ≤ p.2.length) →
      generate_reduced_ins_outs edges ins outs =
        ins.flatMap (fun p =>
          if p.2.length ≤ 1 then [] else nodeBlock ins outs p.1 p.2)) ∧
    ((∀ p ∈ ins, p.2.length ≤ 1) →
      generate_reduced_ins_outs edges ins outs = fallbackBlock edges ins outs) ∧
    (∀ c, c ∈ nodeBlock ins outs node inc ↔
      ∃ subset, subset.Sublist inc ∧ subset ≠ [] ∧
        c = ⟨(removeEdgesPair ins outs (subset.map (fun s => (s, node)))).1,
             (removeEdgesPair ins outs (subset.map (fun s => (s, node)))).2,
             subset.map (fun s => (s, node))⟩) ∧
    (∀ c, c ∈ fallbackBlock edges ins outs ↔
      ∃ ses, ses.Sublist edges ∧ ses ≠ [] ∧
        c = ⟨(removeEdgesPair ins outs ses).1, (removeEdgesPair ins outs ses).2,
             ses⟩) ∧
    (∀ ses u v, u ∈ mapGetD (removeEdgesPair ins outs ses).1 v ↔
      u ∈ mapGetD ins v ∧ (u, v) ∉ ses) ∧
    ((nodeBlock ins outs node inc).map (fun c => c.forced.length)).Pairwise
      (fun a b => a ≤ b) ∧
    ((fallbackBlock edges ins outs).map (fun c => c.forced.length)).Pairwise
      (fun a b => a ≤ b) ∧
    fallbackBlock [] ins outs = [] :=
  ⟨fun h => generate_eq_primary h, fun h => generate_eq_fallback h,
   fun c => mem_nodeBlock, fun c => mem_fallbackBlock,
   fun ses u v => mem_getD_removeEdgesPair_fst,
   nodeBlock_sizes ins outs node inc, fallbackBlock_sizes edges ins outs,
   fallbackBlock_nil ins outs⟩

/-- C9: the call fails with the no-valid-topology message exactly when the
layering of the remainder fails for every candidate cyclic-edge-set the
search produced; a failing candidate is merely discarded, and a normal
return happens exactly when at least one candidate survives. -/
theorem C9_no_valid (edges : List Edge) (sn : Option Nat) :
    (cyclic_toposort edges sn = Except.error noValidMsg ↔
      ∀ cs ∈ recResults edges sn, ∃ msg,
        acyclic_toposort
          (subtractEdges edges (cs ++ (cyclicBuild edges sn).forced))
          = Except.error msg) ∧
    ((∃ r, cyclic_toposort edges sn = Except.ok r) ↔ survivorsOf edges sn ≠ []) := by
  obtain ⟨L, hL, hne, _⟩ := recResultsOf_spec edges sn
  have hrr := recResults_eq hL
  have hsurv := survivorsOf_eq hL
  have heq := cyclic_toposort_eq edges sn
  rw [hL] at heq
  have heq2 : cyclic_toposort edges sn =
      (match L.filterMap (mkSurvivor edges (cyclicBuild edges sn).forced) with
       | [] => (Except.error noValidMsg : Except String (Topology × ESet))
       | r0 :: rest =>
         Except.ok (selectResult (cyclicBuild edges sn).ins (r0 :: rest) r0)) := heq
  constructor
  · constructor
    · intro herr cs hcs
      rw [hrr] at hcs
      cases hfm : L.filterMap (mkSurvivor edges (cyclicBuild edges sn).forced) with
      | nil =>
        exact mkSurvivor_eq_none.1 (List.filterMap_eq_nil.1 hfm cs hcs)
      | cons r0 rest =>
        rw [hfm, herr] at heq2
        cases heq2
    · intro hall
      have hfm : L.filterMap (mkSurvivor edges (cyclicBuild edges sn).forced) = [] := by
        apply List.filterMap_eq_nil.2
        intro cs hcs
        apply mkSurvivor_eq_none.2
        apply hall cs
        rw [hrr]
        exact hcs
      rw [hfm] at heq2
      exact heq2
  · constructor
    · rintro ⟨r, hok⟩ hnil
      rw [hsurv] at hnil
      rw [hnil, hok] at heq2
      cases heq2
    · intro hnnil
      cases hfm : L.filterMap (mkSurvivor edges (cyclicBuild edges sn).forced) with
      | nil =>
        exact absurd (by rw [hsurv, hfm]) hnnil
      | cons r0 rest =>
        rw [hfm] at heq2
        exact ⟨_, heq2⟩

/-- C10: on an input that is acyclic once self-loops are ignored, the cyclic
entry point called without a start node returns the same layering as the
acyclic one, paired with an empty cyclic-edge-set. -/
theorem C10_refines_acyclic (edges : List Edge) (h : ¬ HasCycle edges) :
    ∃ t, acyclic_toposort edges = Except.ok t ∧
      cyclic_toposort edges none = Except.ok (t, []) :=
  cyclic_none_of_noCycle h

theorem C10_refines_acyclic_witness :
    ∃ t, acyclic_toposort [(1, 2)] = Except.ok t ∧
      cyclic_toposort [(1, 2)] none = Except.ok (t, []) :=
  C10_refines_acyclic [(1, 2)]
    (noCycle_of_acyclic_ok
      (show acyclic_toposort [(1, 2)] = Except.ok [[1], [2]] from rfl))

end CT
